import Mathlib

/-!
# Move application of the chess engine (`engine/move.go`)

A shallow embedding of `Board.Move` and `Board.castleHandler`, and of the
coordinate notation `stringToSquare` / `squareToString` of `main.go`, followed
by theorems about them.

* Go's `int` is a 64-bit two's-complement integer: values are `Int`s and every
  arithmetic operation of the source wraps through `wrap64`.
* Go's `float64` is carried as its IEEE-754 bit pattern; `==` on it is
  `Float64.eq` (a NaN equals nothing, the two zeros equal each other).
* An index expression `b.Board[i]` with `i` out of range stops the program:
  the embedding returns `Outcome.panicked` there.
* `legalMoves`, `isCheck` and `occupied` are methods of the package whose text
  is not part of the sources at hand.  They are parameters (`Env`) of the
  embedding, read as functions of the board that do not modify it.
-/

namespace engine

/-! ## Machine integers and floats -/

/-- Two's-complement wrap of an integer into the range of a 64-bit `int`. -/
def wrap64 (x : Int) : Int :=
  (x + 9223372036854775808) % 18446744073709551616 - 9223372036854775808

/-- Go `a - b` on `int`. -/
def isub (a b : Int) : Int := wrap64 (a - b)

/-- Go `a + b` on `int`. -/
def iadd (a b : Int) : Int := wrap64 (a + b)

/-- Go `a * b` on `int`. -/
def imul (a b : Int) : Int := wrap64 (a * b)

/-- Go unary `-a` on `int`. -/
def ineg (a : Int) : Int := wrap64 (-a)

/-- A `float64`, given by its 64-bit IEEE-754 pattern. -/
structure Float64 where
  bits : Nat
deriving DecidableEq, Repr

/-- Exponent field all ones and a non-zero fraction. -/
def Float64.isNaN (f : Float64) : Bool :=
  (f.bits % 18446744073709551616) / 4503599627370496 % 2048 == 2047 &&
    f.bits % 4503599627370496 != 0

/-- Positive or negative zero: every bit but the sign is clear. -/
def Float64.isZero (f : Float64) : Bool :=
  f.bits % 9223372036854775808 == 0

/-- Go `==` on `float64`. -/
def Float64.eq (f g : Float64) : Bool :=
  !f.isNaN && !g.isNaN &&
    (f.bits % 18446744073709551616 == g.bits % 18446744073709551616 ||
      (f.isZero && g.isZero))

/-! ## Data model -/

/-- A board coordinate: file `X` and rank `Y`. -/
structure Square where
  X : Int
  Y : Int
deriving DecidableEq, Repr

/-- A piece, with the fields the sources read or write. -/
structure Piece where
  Name : String
  Position : Square
  Color : Int
  Directions : List (Int × Int)
  Infinite_direction : Bool
  Captured : Bool
  Can_castle : Bool
  Can_double_move : Bool
  Can_en_passant : Bool
deriving DecidableEq, Repr

/-- The `Move` struct of `move.go`: piece name, beginning and ending squares, score. -/
structure Move where
  Piece : String
  Begin : Square
  End : Square
  Score : Float64
deriving DecidableEq, Repr

/-- Go `==` on two `Move` values: field by field, the score as a `float64`. -/
def Move.goEq (m n : Move) : Bool :=
  m.Piece == n.Piece && m.Begin == n.Begin && m.End == n.End && m.Score.eq n.Score

set_option linter.dupNamespace false in
/-- The board: the slice of pieces, the side to move and the last move made. -/
structure Board where
  Board : List Piece
  Turn : Int
  Lastmove : Move
deriving DecidableEq, Repr

/-- The three methods used by `move.go` whose bodies are not among the sources.
`legalMoves b i c` stands for `b.Board[i].legalMoves(b, c)`. -/
structure Env where
  legalMoves : Board → Nat → Bool → List Move
  isCheck : Board → Int → Bool
  occupied : Board → Square → Int

/-- What a call leaves behind: the board and the returned `error` (`none` for
`nil`), or a run-time panic. -/
inductive Outcome where
  | returned (b : Board) (err : Option String)
  | panicked
deriving DecidableEq, Repr

/-! ## `maxInt`, `minInt` -/

def maxInt (x y : Int) : Int := if x > y then x else y

def minInt (x y : Int) : Int := if x > y then y else x

/-! ## `Board.Move`, ordinary path -/

/-- `b.Board[i].field = v`: panics (`none`) when `i` is out of range. -/
def setAt (ps : List Piece) (i : Nat) (f : Piece → Piece) : Option (List Piece) :=
  if i < ps.length then some (ps.modify f i) else none

/-- The four locals of the first loop of `Move`, with Go's zero values. -/
structure Located where
  piecefound : Bool := false
  pieceindex : Nat := 0
  capture : Bool := false
  capturedpiece : Nat := 0
deriving DecidableEq, Repr

/-- Body of the first loop of `Move` (lines 48-54) for slot `i` holding `p`. -/
def locateStep (m : Move) (turn : Int) (i : Nat) (p : Piece) (s : Located) : Located :=
  if m.Begin = p.Position ∧ m.Piece = p.Name ∧ turn = p.Color then
    { s with pieceindex := i, piecefound := true }
  else if m.End = p.Position ∧ p.Color = imul turn (-1) then
    { s with capture := true, capturedpiece := i }
  else s

/-- The first loop of `Move` (lines 47-58), over the slots from index `i` on. -/
def locate (m : Move) (turn : Int) : List Piece → Nat → Located → Located
  | [], _, s => s
  | p :: ps, i, s =>
    let s1 := locateStep m turn i p s
    if s1.piecefound && s1.capture then s1 else locate m turn ps (i + 1) s1

/-- The en-passant loop of `Move` (lines 78-83): the first slot from index `i`
on that stands on `(x, y)`, or the previous value `c` of `capturedpiece`. -/
def findVictim (x y : Int) : List Piece → Nat → Nat → Nat
  | [], _, c => c
  | p :: ps, i, c =>
    if p.Position.X = x ∧ p.Position.Y = y then i else findVictim x y ps (i + 1) c

/-- The condition of line 76. -/
def enPassantBranch (m : Move) (s : Located) : Bool :=
  !s.capture && m.Piece == "p" &&
    (isub m.Begin.X m.End.X == 1 || isub m.End.X m.Begin.X == 1)

/-- The slot written to the sentinel by lines 86-91, as lines 76-84 leave it;
`ps1` is the slice once the mover stands on its destination. -/
def victimIndex (m : Move) (s : Located) (ps1 : List Piece) : Nat :=
  if enPassantBranch m s then findVictim m.End.X m.Begin.Y ps1 0 s.capturedpiece
  else s.capturedpiece

/-- Lines 99-101 of `Move`: the mover is flagged after a pawn move of two ranks. -/
def flagDoubleStep (m : Move) (pieceindex : Nat) (ps : List Piece) : Option (List Piece) :=
  if m.Piece = "p" then
    match ps[pieceindex]? with
    | none => none
    | some mover =>
      if isub m.Begin.Y m.End.Y = imul 2 (ineg mover.Color) then
        setAt ps pieceindex (fun p => { p with Can_en_passant := true })
      else some ps
  else some ps

/-- Lines 67 and 75-104 of `Move`: the mutations made once `move`, equal to
`*m`, was found among the legal moves. -/
def applyMove (b : Board) (m move : Move) (s : Located) : Option Board :=
  (setAt b.Board s.pieceindex (fun p => { p with Position := move.End })).bind fun ps1 =>
  (if s.capture || enPassantBranch m s then
      setAt ps1 (victimIndex m s ps1) (fun p => { p with Position := { X := 0, Y := 0 } })
    else some ps1).bind fun ps2 =>
  (setAt ps2 s.pieceindex (fun p => { p with Can_double_move := false })).bind fun ps3 =>
  (if m.Piece = "k" ∨ m.Piece = "r" then
      setAt ps3 s.pieceindex (fun p => { p with Can_castle := false })
    else some ps3).bind fun ps4 =>
  (flagDoubleStep m s.pieceindex
    (ps4.map (fun p => { p with Can_en_passant := false }))).bind fun ps6 =>
  some { Board := ps6, Turn := imul b.Turn (-1), Lastmove := m }

/-! ## `Board.castleHandler` -/

/-- The three locals of the loop of `castleHandler`, with Go's zero values. -/
structure Castling where
  kingindex : Nat := 0
  rookindex : Nat := 0
  rookfound : Bool := false
deriving DecidableEq, Repr

/-- Body of the loop of `castleHandler` (lines 116-126). -/
def castleStep (m : Move) (turn : Int) (i : Nat) (p : Piece) (s : Castling) : Castling :=
  if m.Begin = p.Position ∧ m.Piece = p.Name ∧ turn = p.Color then
    { s with kingindex := i }
  else if p.Name = "r" ∧
      ((m.End.X = 7 ∧ p.Position.X = 8) ∨ (m.End.X = 3 ∧ p.Position.X = 1)) then
    if turn = 1 ∧ p.Position.Y = 1 then
      { s with rookfound := true, rookindex := i }
    else if turn = -1 ∧ p.Position.Y = 8 then
      { s with rookfound := true, rookindex := i }
    else s
  else s

/-- The loop of `castleHandler` (lines 115-130). -/
def castleScan (m : Move) (turn : Int) : List Piece → Nat → Castling → Castling
  | [], _, s => s
  | p :: ps, i, s =>
    let s1 := castleStep m turn i p s
    if s1.rookfound && decide (s1.kingindex > 0) then s1
    else castleScan m turn ps (i + 1) s1

/-- The loop of lines 140-148: some square of rank `y` with file from
`lo + 1` up to `hi - 1` is reported occupied. -/
def pathBlocked (env : Env) (b : Board) (lo hi y : Int) : Bool :=
  (List.range (hi - iadd lo 1).toNat).any
    (fun k => env.occupied b { X := iadd lo 1 + (k : Int), Y := y } != 0)

/-- Lines 149-160 of `castleHandler`, entered once the path is clear. -/
def castlePlace (env : Env) (b : Board) (m : Move) (s : Castling) : Outcome :=
  match setAt b.Board s.kingindex (fun p => { p with Position := m.End }) with
  | none => .panicked
  | some ps1 =>
    if env.isCheck { b with Board := ps1 } b.Turn then
      match setAt ps1 s.kingindex (fun p => { p with Position := m.Begin }) with
      | none => .panicked
      | some ps2 =>
        .returned { b with Board := ps2 }
          (some "func castleHandler: castle places user in check")
    else
      match (if m.End.X = 7 then
          setAt ps1 s.rookindex (fun p => { p with Position := { p.Position with X := 6 } })
        else some ps1) with
      | none => .panicked
      | some ps2 =>
        match (if m.End.X = 3 then
            setAt ps2 s.rookindex (fun p => { p with Position := { p.Position with X := 4 } })
          else some ps2) with
        | none => .panicked
        | some ps3 => .returned { b with Board := ps3 } none

/-- The method `castleHandler` of `move.go`. -/
def Board.castleHandler (env : Env) (b : engine.Board) (m : engine.Move) : Outcome :=
  if env.isCheck b b.Turn then
    .returned b (some "func castleHandler: king is in check")
  else
    let s := castleScan m b.Turn b.Board 0 {}
    match b.Board[s.kingindex]? with
    | none => .panicked
    | some king =>
      if !king.Can_castle then
        .returned b (some "func castleHandler: king has already moved")
      else if !s.rookfound then
        .returned b (some "func castleHandler: no rook in position to castle to given side")
      else
        match b.Board[s.rookindex]? with
        | none => .panicked
        | some rook =>
          if !rook.Can_castle then
            .returned b (some "func castleHandler: rook has already moved")
          else if pathBlocked env b (minInt rook.Position.X king.Position.X)
              (maxInt rook.Position.X king.Position.X) king.Position.Y then
            .returned b (some "func castleHandler: castle path is blocked")
          else castlePlace env b m s

/-! ## `Board.Move` -/

/-- The condition of line 34: the move is handed to `castleHandler`. -/
def isCastleDispatch (m : Move) : Bool :=
  m.Piece == "k" && isub m.Begin.X m.End.X != 1 && isub m.End.X m.Begin.X != 1

/-- The method `Move` of `move.go`. -/
def Board.Move (env : Env) (b : engine.Board) (m : engine.Move) : Outcome :=
  if isCastleDispatch m then
    match b.castleHandler env m with
    | .returned b1 none =>
      .returned { b1 with Turn := imul b1.Turn (-1), Lastmove := m } none
    | r => r
  else
    let s := locate m b.Turn b.Board 0 {}
    if !s.piecefound then
      .returned b (some "func Move: invalid piece")
    else
      match b.Board[s.pieceindex]? with
      | none => .panicked
      | some _ =>
        match (env.legalMoves b s.pieceindex true).find? (fun move => m.goEq move) with
        | none => .returned b (some "func Move: illegal move")
        | some move =>
          match applyMove b m move s with
          | none => .panicked
          | some b1 => .returned b1 none

/-! ## Reading the loops -/

/-- The test of line 48: slot `p` is the piece the move names, of the side to move. -/
def isMover (m : Move) (turn : Int) (p : Piece) : Prop :=
  m.Begin = p.Position ∧ m.Piece = p.Name ∧ turn = p.Color

/-- The test of line 51: slot `p` stands on the destination and has the colour `turn * -1`. -/
def isTarget (m : Move) (turn : Int) (p : Piece) : Prop :=
  m.End = p.Position ∧ p.Color = imul turn (-1)

instance (m : Move) (turn : Int) (p : Piece) : Decidable (isMover m turn p) := by
  unfold isMover; infer_instance

instance (m : Move) (turn : Int) (p : Piece) : Decidable (isTarget m turn p) := by
  unfold isTarget; infer_instance

/-- What the locals of the first loop of `Move` say about the slots `0 .. n-1`
of the slice `all` once these have been visited. -/
structure LocInv (m : Move) (turn : Int) (all : List Piece) (n : Nat) (s : Located) : Prop where
  found : s.piecefound = true → ∃ p, all[s.pieceindex]? = some p ∧ isMover m turn p
  cap : s.capture = true →
    ∃ q, all[s.capturedpiece]? = some q ∧ isTarget m turn q ∧ ¬ isMover m turn q
  nofound : s.piecefound = false → ∀ k < n, ∀ p, all[k]? = some p → ¬ isMover m turn p
  nocap : s.capture = false →
    s.capturedpiece = 0 ∧ ∀ k < n, ∀ p, all[k]? = some p → isTarget m turn p → isMover m turn p

/-- Closed form of slot `j` after lines 67-101 of `Move`, from its content `p`
before: `pieceindex` is the mover, `capturedpiece` the slot sent to the
sentinel when `capture` holds, `color` the colour of the mover. -/
def pieceAfter (m move : Move) (pieceindex : Nat) (capture : Bool) (capturedpiece : Nat)
    (color : Int) (j : Nat) (p : Piece) : Piece :=
  { p with
    Position :=
      if capture = true ∧ j = capturedpiece then { X := 0, Y := 0 }
      else if j = pieceindex then move.End else p.Position
    Can_double_move := if j = pieceindex then false else p.Can_double_move
    Can_castle :=
      if j = pieceindex ∧ (m.Piece = "k" ∨ m.Piece = "r") then false else p.Can_castle
    Can_en_passant :=
      decide (j = pieceindex ∧ m.Piece = "p" ∧
        isub m.Begin.Y m.End.Y = imul 2 (ineg color)) }

/-- The test of line 118 and of lines 119-125: slot `p` is a piece named "r" on
the corner that goes with the king's destination file, on the home rank of
the side `turn`. -/
def isCornerRook (m : Move) (turn : Int) (p : Piece) : Prop :=
  (p.Name = "r" ∧ ((m.End.X = 7 ∧ p.Position.X = 8) ∨ (m.End.X = 3 ∧ p.Position.X = 1))) ∧
    ((turn = 1 ∧ p.Position.Y = 1) ∨ (turn = -1 ∧ p.Position.Y = 8))

/-- What the locals of the loop of `castleHandler` say about the slots
`0 .. n-1` of the slice `all` once these have been visited. -/
structure CastleInv (m : Move) (turn : Int) (all : List Piece) (n : Nat) (s : Castling) :
    Prop where
  king : 0 < s.kingindex → ∃ p, all[s.kingindex]? = some p ∧ isMover m turn p
  noking : s.kingindex = 0 → ∀ k < n, 0 < k → ∀ p, all[k]? = some p → ¬ isMover m turn p
  rook : s.rookfound = true →
    ∃ q, all[s.rookindex]? = some q ∧ ¬ isMover m turn q ∧ isCornerRook m turn q
  norook : s.rookfound = false →
    s.rookindex = 0 ∧
      ∀ k < n, ∀ q, all[k]? = some q → ¬ isMover m turn q → ¬ isCornerRook m turn q

/-! ## Concrete boards -/

/-- A piece of the given name and colour on square `(x, y)`, with an empty
direction table and every flag clear. -/
def pieceAt (name : String) (color x y : Int) : Piece :=
  { Name := name, Position := { X := x, Y := y }, Color := color, Directions := [],
    Infinite_direction := false, Captured := false, Can_castle := false,
    Can_double_move := false, Can_en_passant := false }

/-- A move with score `+0`. -/
def moveOf (name : String) (x1 y1 x2 y2 : Int) : Move :=
  { Piece := name, Begin := { X := x1, Y := y1 }, End := { X := x2, Y := y2 },
    Score := { bits := 0 } }

/-- An instance of `Env` read off tables, to run the embedding on concrete
boards: `legalMoves` answers `legal` for every slot, `isCheck` holds exactly on
the slices listed in `checked`, and `occupied` is the colour of the first piece
standing on the square, `0` when there is none. -/
def tableEnv (legal : List Move) (checked : List (List Piece)) : Env :=
  { legalMoves := fun _ _ _ => legal
    isCheck := fun b _ => decide (b.Board ∈ checked)
    occupied := fun b sq =>
      match b.Board.find? (fun p => p.Position == sq) with
      | some p => p.Color
      | none => 0 }

/-- The first position of `TestMove`: a white rook on a1, a black knight on b1,
white to move. -/
def rookBoard : Board :=
  { Board := [pieceAt "r" 1 1 1, pieceAt "n" (-1) 2 1], Turn := 1,
    Lastmove := moveOf "" 0 0 0 0 }

/-- On `rookBoard` the rook may take the knight or step to a2. -/
def rookEnv : Env := tableEnv [moveOf "r" 1 1 2 1, moveOf "r" 1 1 1 2] []

/-- The position `TestMove` expects after the rook took the knight. -/
def rookBoardAfter : Board :=
  { Board := [pieceAt "r" 1 2 1, pieceAt "n" (-1) 0 0], Turn := -1,
    Lastmove := moveOf "r" 1 1 2 1 }

/-- Modelled from the spec: `legalMoves` is not among the sources.  Section 4.3
of the specification lets a pawn leave its file only by a step that also
changes its rank, and only when the destination holds an enemy piece or, for en
passant, when a piece flagged `can_be_captured_en_passant` stands beside the
pawn on the destination file.  `PawnStepRule env b i` states this of the moves
`legalMoves` offers slot `i` of board `b`. -/
def PawnStepRule (env : Env) (b : Board) (i : Nat) : Prop :=
  ∀ p ∈ b.Board[i]?, ∀ mv ∈ env.legalMoves b i true,
    mv.Piece = "p" → (isub mv.Begin.X mv.End.X = 1 ∨ isub mv.End.X mv.Begin.X = 1) →
      mv.End.Y ≠ mv.Begin.Y ∧
        ((∃ q ∈ b.Board, q.Position = mv.End ∧ q.Color = imul p.Color (-1)) ∨
          (∃ q ∈ b.Board, q.Position = { X := mv.End.X, Y := mv.Begin.Y } ∧
            q.Can_en_passant = true))

/-- The en-passant position of `TestMove`: a black pawn on b5 that has just
advanced two ranks, a white pawn on c5, white to move. -/
def passantBoard : Board :=
  { Board := [{ pieceAt "p" (-1) 2 5 with Can_en_passant := true }, pieceAt "p" 1 3 5],
    Turn := 1, Lastmove := moveOf "p" 2 7 2 5 }

/-- On `passantBoard` the white pawn may advance or take en passant. -/
def passantEnv : Env := tableEnv [moveOf "p" 3 5 3 6, moveOf "p" 3 5 2 6] []

/-- The position after the en-passant capture on `passantBoard`. -/
def passantBoardAfter : Board :=
  { Board := [pieceAt "p" (-1) 0 0, pieceAt "p" 1 2 6], Turn := -1,
    Lastmove := moveOf "p" 3 5 2 6 }

/-- A lone white king on e1, white to move. -/
def kingBoard : Board :=
  { Board := [pieceAt "k" 1 5 1], Turn := 1, Lastmove := moveOf "" 0 0 0 0 }

/-- On `kingBoard` the king may step to e2 or to d1. -/
def kingEnv : Env := tableEnv [moveOf "k" 5 1 5 2, moveOf "k" 5 1 4 1] []

/-- The promotion position of `TestMove`: a white pawn on a7, white to move. -/
def promotionBoard : Board :=
  { Board := [pieceAt "p" 1 1 7], Turn := 1, Lastmove := moveOf "" 0 0 0 0 }

/-- On `promotionBoard` the pawn may advance to a8. -/
def promotionEnv : Env := tableEnv [moveOf "p" 1 7 1 8] []

/-- The board `Move` leaves after the pawn of `promotionBoard` went to a8. -/
def promotionBoardAfter : Board :=
  { Board := [pieceAt "p" 1 1 8], Turn := -1, Lastmove := moveOf "p" 1 7 1 8 }

/-- Black to move, the black king on f7 (it has moved), a black rook with its
castling right on h8; slot 0 is the white king on e1, with its castling right. -/
def strayBoard : Board :=
  { Board := [{ pieceAt "k" 1 5 1 with Can_castle := true }, pieceAt "k" (-1) 6 7,
      { pieceAt "r" (-1) 8 8 with Can_castle := true }],
    Turn := -1, Lastmove := moveOf "" 0 0 0 0 }

/-- `strayBoard` with slot 0 placed on g8, where it stands next to the black king. -/
def strayBoardTentative : Board :=
  { strayBoard with
    Board := [{ pieceAt "k" 1 7 8 with Can_castle := true }, pieceAt "k" (-1) 6 7,
      { pieceAt "r" (-1) 8 8 with Can_castle := true }] }

/-- `strayBoard` with slot 0 on e8. -/
def strayBoardAfter : Board :=
  { strayBoard with
    Board := [{ pieceAt "k" 1 5 8 with Can_castle := true }, pieceAt "k" (-1) 6 7,
      { pieceAt "r" (-1) 8 8 with Can_castle := true }] }

/-- An `Env` in which black is in check exactly on the slice of `strayBoardTentative`. -/
def strayEnv : Env := tableEnv [] [strayBoardTentative.Board]

/-- White to move, slot 0 a white rook with its castling right on h1, the white
king on e2. -/
def cornerBoard : Board :=
  { Board := [{ pieceAt "r" 1 8 1 with Can_castle := true }, pieceAt "k" 1 5 2],
    Turn := 1, Lastmove := moveOf "" 0 0 0 0 }

/-- `cornerBoard` with slot 0 placed on g1. -/
def cornerBoardTentative : Board :=
  { cornerBoard with
    Board := [{ pieceAt "r" 1 7 1 with Can_castle := true }, pieceAt "k" 1 5 2] }

/-- The board `Move` leaves on `cornerBoard` for the king move e1-g1. -/
def cornerBoardAfter : Board :=
  { Board := [{ pieceAt "r" 1 6 1 with Can_castle := true }, pieceAt "k" 1 5 2],
    Turn := -1, Lastmove := moveOf "k" 5 1 7 1 }

/-- An `Env` in which no side is ever in check. -/
def quietEnv : Env := tableEnv [] []

/-- The castling position of `TestForceMove`: the white king on e1 and a white
rook on h1, both with their castling right, white to move. -/
def castleBoard : Board :=
  { Board := [{ pieceAt "k" 1 5 1 with Can_castle := true },
      { pieceAt "r" 1 8 1 with Can_castle := true }],
    Turn := 1, Lastmove := moveOf "" 0 0 0 0 }

/-- The board `Move` leaves on `castleBoard` for the king move e1-g1. -/
def castleBoardAfter : Board :=
  { Board := [{ pieceAt "k" 1 7 1 with Can_castle := true },
      { pieceAt "r" 1 6 1 with Can_castle := true }],
    Turn := -1, Lastmove := moveOf "k" 5 1 7 1 }

/-- A board with no pieces, white to move. -/
def emptyBoard : Board :=
  { Board := [], Turn := 1, Lastmove := moveOf "" 0 0 0 0 }

/-- A piece with its square put aside: two pieces with the same `unplaced`
differ at most in their position. -/
def Piece.unplaced (p : Piece) : Piece :=
  { p with Position := { X := 0, Y := 0 } }

/-- `castleBoard` after black advanced its b-pawn two ranks: the pawn on b5
carries the en-passant flag, white to move. -/
def flaggedBoard : Board :=
  { Board := [{ pieceAt "k" 1 5 1 with Can_castle := true },
      { pieceAt "r" 1 8 1 with Can_castle := true },
      { pieceAt "p" (-1) 2 5 with Can_en_passant := true }],
    Turn := 1, Lastmove := moveOf "p" 2 7 2 5 }

/-- The board `Move` leaves on `flaggedBoard` for the king move e1-g1. -/
def flaggedBoardAfter : Board :=
  { Board := [{ pieceAt "k" 1 7 1 with Can_castle := true },
      { pieceAt "r" 1 6 1 with Can_castle := true },
      { pieceAt "p" (-1) 2 5 with Can_en_passant := true }],
    Turn := -1, Lastmove := moveOf "k" 5 1 7 1 }

/-- The first position of `TestCanCastle`: the white king on e1 and a white rook
on h1, both with their castling right, a white bishop on f1 in between. -/
def blockedBoard : Board :=
  { Board := [{ pieceAt "k" 1 5 1 with Can_castle := true },
      { pieceAt "r" 1 8 1 with Can_castle := true }, pieceAt "b" 1 6 1],
    Turn := 1, Lastmove := moveOf "" 0 0 0 0 }

/-- `castleBoard` with the castling right of the rook cleared. -/
def movedRookBoard : Board :=
  { Board := [{ pieceAt "k" 1 5 1 with Can_castle := true }, pieceAt "r" 1 8 1],
    Turn := 1, Lastmove := moveOf "" 0 0 0 0 }

/-- The king move e1-g5 on `castleBoard`: two files to the right, four ranks up. -/
def farMove : Move := moveOf "k" 5 1 7 5

/-- `castleBoard` with the king placed on g5. -/
def farBoardTentative : Board :=
  { castleBoard with
    Board := [{ pieceAt "k" 1 7 5 with Can_castle := true },
      { pieceAt "r" 1 8 1 with Can_castle := true }] }

/-- The board `Move` leaves on `castleBoard` for `farMove`. -/
def farBoardAfter : Board :=
  { Board := [{ pieceAt "k" 1 7 5 with Can_castle := true },
      { pieceAt "r" 1 6 1 with Can_castle := true }],
    Turn := -1, Lastmove := farMove }

/-- White to move, the white king on e2 and a black rook on h1, both with
`Can_castle` set; white has no rook. -/
def awayBoard : Board :=
  { Board := [{ pieceAt "k" 1 5 2 with Can_castle := true },
      { pieceAt "r" (-1) 8 1 with Can_castle := true }],
    Turn := 1, Lastmove := moveOf "" 0 0 0 0 }

/-- `awayBoard` with the king placed on g2. -/
def awayBoardTentative : Board :=
  { awayBoard with
    Board := [{ pieceAt "k" 1 7 2 with Can_castle := true },
      { pieceAt "r" (-1) 8 1 with Can_castle := true }] }

/-- The board `Move` leaves on `awayBoard` for the king move e2-g2. -/
def awayBoardAfter : Board :=
  { Board := [{ pieceAt "k" 1 7 2 with Can_castle := true },
      { pieceAt "r" (-1) 6 1 with Can_castle := true }],
    Turn := -1, Lastmove := moveOf "k" 5 2 7 2 }

/-- White to move, the white king on f2 (it has moved), a white rook with its
castling right on h1; slot 0 is the black king on e8, with its castling right. -/
def mirrorBoard : Board :=
  { Board := [{ pieceAt "k" (-1) 5 8 with Can_castle := true }, pieceAt "k" 1 6 2,
      { pieceAt "r" 1 8 1 with Can_castle := true }],
    Turn := 1, Lastmove := moveOf "" 0 0 0 0 }

/-- `mirrorBoard` with slot 0 placed on g1, next to the white king. -/
def mirrorBoardTentative : Board :=
  { mirrorBoard with
    Board := [{ pieceAt "k" (-1) 7 1 with Can_castle := true }, pieceAt "k" 1 6 2,
      { pieceAt "r" 1 8 1 with Can_castle := true }] }

/-- `mirrorBoard` with slot 0 on e1. -/
def mirrorBoardAfter : Board :=
  { mirrorBoard with
    Board := [{ pieceAt "k" (-1) 5 1 with Can_castle := true }, pieceAt "k" 1 6 2,
      { pieceAt "r" 1 8 1 with Can_castle := true }] }

/-- An `Env` in which white is in check exactly on the slice of `mirrorBoardTentative`. -/
def mirrorEnv : Env := tableEnv [] [mirrorBoardTentative.Board]

/-- The rook capture on `rookBoard` carrying the score `1.0`, as a search would
leave it. -/
def scoredMove : Move :=
  { moveOf "r" 1 1 2 1 with Score := { bits := 4607182418800017408 } }

/-! ## Coordinate notation (`main.go`) -/

/-- The package variable `files` of `main.go`: the bytes `'a'` to `'h'`. -/
def files : List Nat :=
  ['a'.toNat, 'b'.toNat, 'c'.toNat, 'd'.toNat, 'e'.toNat, 'f'.toNat, 'g'.toNat, 'h'.toNat]

/-- The package variable `ranks` of `main.go`: the bytes `'1'` to `'8'`. -/
def ranks : List Nat :=
  ['1'.toNat, '2'.toNat, '3'.toNat, '4'.toNat, '5'.toNat, '6'.toNat, '7'.toNat, '8'.toNat]

/-- One of the two loops of `stringToSquare`, over the entries of the table from
index `i` on: the coordinate is `i + 1` for the first entry equal to the byte
`s[k]`, and keeps its value `v` when no entry is.  A Go string is the sequence
of its bytes; `s[k]` is read at every iteration and panics (`none`) when the
string is too short. -/
def scanTable (s : List Nat) (k : Nat) : List Nat → Nat → Int → Option Int
  | [], _, v => some v
  | b :: bs, i, v =>
    match s[k]? with
    | none => none
    | some c => if b = c then some (iadd (i : Int) 1) else scanTable s k bs (i + 1) v

/-- The function `stringToSquare` of `main.go`; `square` starts as the zero
value `(0, 0)`. -/
def stringToSquare (s : List Nat) : Option Square :=
  (scanTable s 0 files 0 0).bind fun x =>
  (scanTable s 1 ranks 0 0).bind fun y =>
  some { X := x, Y := y }

/-- Go `t[i]` on a slice of bytes with an `int` index: panics (`none`) when the
index is negative or not below the length. -/
def byteAt (t : List Nat) (i : Int) : Option Nat :=
  if 0 ≤ i then t[i.toNat]? else none

/-- The function `squareToString` of `main.go`: the string of the two bytes
`files[s.X-1]` and `ranks[s.Y-1]`. -/
def squareToString (s : Square) : Option (List Nat) :=
  (byteAt files (isub s.X 1)).bind fun f =>
  (byteAt ranks (isub s.Y 1)).bind fun r =>
  some [f, r]

/-- The slot lines 86-91 of `Move` write the sentinel to once `m` was found
among the legal moves, if there is one: `capturedpiece` as lines 76-84 leave
it, when `capture` holds after them. -/
def capturedSlot (b : Board) (m : Move) : Option Nat :=
  if (locate m b.Turn b.Board 0 {}).capture ||
      enPassantBranch m (locate m b.Turn b.Board 0 {}) then
    some (victimIndex m (locate m b.Turn b.Board 0 {})
      (b.Board.modify (fun p => { p with Position := m.End })
        (locate m b.Turn b.Board 0 {}).pieceindex))
  else none

/-- White to move, the white king on e1 in slot 0 and a white pawn on c5; no
other piece is on the board. -/
def lonePawnBoard : Board :=
  { Board := [pieceAt "k" 1 5 1, pieceAt "p" 1 3 5], Turn := 1,
    Lastmove := moveOf "" 0 0 0 0 }

/-- On `lonePawnBoard` the pawn may advance to c6: no piece stands on either
diagonal square nor beside the pawn. -/
def lonePawnEnv : Env := tableEnv [moveOf "p" 3 5 3 6] []

/-- The position of `rookBoard` with the white king on e1 in slot 0, carrying
both of its flags: a white rook on a1, a black knight on b1, white to move. -/
def escortBoard : Board :=
  { Board := [{ pieceAt "k" 1 5 1 with Can_castle := true, Can_double_move := true },
      { pieceAt "r" 1 1 1 with Can_castle := true }, pieceAt "n" (-1) 2 1],
    Turn := 1, Lastmove := moveOf "" 0 0 0 0 }

/-- The board `Move` leaves on `escortBoard` after the rook took the knight. -/
def escortBoardAfter : Board :=
  { Board := [{ pieceAt "k" 1 5 1 with Can_castle := true, Can_double_move := true },
      pieceAt "r" 1 2 1, pieceAt "n" (-1) 0 0],
    Turn := -1, Lastmove := moveOf "r" 1 1 2 1 }

/-! # Theorems -/

theorem locateStep_inv (m : Move) (turn : Int) (all : List Piece) (i : Nat) (p : Piece)
    (s : Located) (hp : all[i]? = some p) (h : LocInv m turn all i s) :
    LocInv m turn all (i + 1) (locateStep m turn i p s) := by
  unfold locateStep
  by_cases h1 : m.Begin = p.Position ∧ m.Piece = p.Name ∧ turn = p.Color
  · rw [if_pos h1]
    refine ⟨fun _ => ⟨p, hp, h1⟩, fun hc => h.cap hc, fun hf => by simp at hf, fun hc => ?_⟩
    obtain ⟨h0, hall⟩ := h.nocap hc
    refine ⟨h0, fun k hk q hq ht => ?_⟩
    rcases Nat.lt_succ_iff_lt_or_eq.mp hk with hlt | heq
    · exact hall k hlt q hq ht
    · subst heq; rw [hp] at hq; cases hq; exact h1
  · rw [if_neg h1]
    by_cases h2 : m.End = p.Position ∧ p.Color = imul turn (-1)
    · rw [if_pos h2]
      refine ⟨fun hf => h.found hf, fun _ => ⟨p, hp, h2, h1⟩, fun hf k hk q hq => ?_,
        fun hc => by simp at hc⟩
      rcases Nat.lt_succ_iff_lt_or_eq.mp hk with hlt | heq
      · exact h.nofound hf k hlt q hq
      · subst heq; rw [hp] at hq; cases hq; exact h1
    · rw [if_neg h2]
      refine ⟨h.found, h.cap, fun hf k hk q hq => ?_, fun hc => ?_⟩
      · rcases Nat.lt_succ_iff_lt_or_eq.mp hk with hlt | heq
        · exact h.nofound hf k hlt q hq
        · subst heq; rw [hp] at hq; cases hq; exact h1
      · obtain ⟨h0, hall⟩ := h.nocap hc
        refine ⟨h0, fun k hk q hq ht => ?_⟩
        rcases Nat.lt_succ_iff_lt_or_eq.mp hk with hlt | heq
        · exact hall k hlt q hq ht
        · subst heq; rw [hp] at hq; cases hq; exact absurd ht h2

theorem locInv_of_break {m : Move} {turn : Int} {all : List Piece} {n k : Nat} {s : Located}
    (h : LocInv m turn all n s) (hb : s.piecefound = true) (hc : s.capture = true) :
    LocInv m turn all k s :=
  ⟨h.found, h.cap, fun hf => by simp [hb] at hf, fun hf => by simp [hc] at hf⟩

theorem locate_inv (m : Move) (turn : Int) (all : List Piece) :
    ∀ (ps : List Piece) (i : Nat) (s : Located),
      (∀ k, ps[k]? = all[i + k]?) → LocInv m turn all i s →
      LocInv m turn all (i + ps.length) (locate m turn ps i s)
  | [], i, s, _, h => by simpa [locate] using h
  | p :: ps, i, s, hps, h => by
    have hp : all[i]? = some p := by simpa using (hps 0).symm
    have h1 := locateStep_inv m turn all i p s hp h
    unfold locate
    by_cases hb : ((locateStep m turn i p s).piecefound && (locateStep m turn i p s).capture) = true
    · simp only [hb, if_true]
      simp only [Bool.and_eq_true] at hb
      exact locInv_of_break h1 hb.1 hb.2
    · simp only [hb, if_false]
      have := locate_inv m turn all ps (i + 1) (locateStep m turn i p s)
        (fun k => by simpa [Nat.add_assoc, Nat.add_comm 1 k] using hps (k + 1)) h1
      simpa [Nat.add_assoc, Nat.add_comm 1] using this

/-- The locals of `Move` after its first loop describe the whole slice. -/
theorem locate_spec (m : Move) (b : Board) :
    LocInv m b.Turn b.Board b.Board.length (locate m b.Turn b.Board 0 {}) := by
  have h0 : LocInv m b.Turn b.Board 0 ({} : Located) :=
    ⟨fun h => by simp at h, fun h => by simp at h, fun _ k hk => by omega,
      fun _ => ⟨rfl, fun k hk => by omega⟩⟩
  simpa using locate_inv m b.Turn b.Board b.Board 0 {} (fun k => by simp) h0


theorem setAt_eq_some {ps ps1 : List Piece} {i : Nat} {f : Piece → Piece} :
    setAt ps i f = some ps1 ↔ i < ps.length ∧ ps1 = ps.modify f i := by
  unfold setAt
  by_cases h : i < ps.length
  · simp [h, eq_comm]
  · simp [h]

theorem findVictim_lt (x y : Int) :
    ∀ (ps : List Piece) (i c : Nat), c < i + ps.length → findVictim x y ps i c < i + ps.length
  | [], _, _, h => by simpa [findVictim] using h
  | p :: ps, i, c, h => by
    unfold findVictim
    split
    · simp
    · have := findVictim_lt x y ps (i + 1) c (by simp at h; omega)
      simp only [List.length_cons]; omega

theorem setAt_getElem? {ps ps1 : List Piece} {i : Nat} {f : Piece → Piece}
    (h : setAt ps i f = some ps1) :
    ps1.length = ps.length ∧
      ∀ j, ps1[j]? = (ps[j]?).map (fun a => if i = j then f a else a) := by
  obtain ⟨_, rfl⟩ := setAt_eq_some.mp h
  exact ⟨by simp, fun j => by rw [List.getElem?_modify]; rfl⟩

theorem iteSetAt_getElem? {ps ps1 : List Piece} {i : Nat} {f : Piece → Piece} {c : Prop}
    [Decidable c] (h : (if c then setAt ps i f else some ps) = some ps1) :
    ps1.length = ps.length ∧
      ∀ j, ps1[j]? = (ps[j]?).map (fun a => if c ∧ i = j then f a else a) := by
  by_cases hc : c
  · rw [if_pos hc] at h
    obtain ⟨hl, hg⟩ := setAt_getElem? h
    exact ⟨hl, fun j => by rw [hg j]; simp [hc]⟩
  · rw [if_neg hc] at h
    cases h
    exact ⟨rfl, fun j => by simp [hc]⟩

theorem flagDoubleStep_getElem? {m : Move} {ps ps1 : List Piece} {i : Nat}
    (h : flagDoubleStep m i ps = some ps1) :
    ps1.length = ps.length ∧
      ∀ j, ps1[j]? = (ps[j]?).map (fun a =>
        if m.Piece = "p" ∧ i = j ∧ isub m.Begin.Y m.End.Y = imul 2 (ineg a.Color) then
          { a with Can_en_passant := true }
        else a) := by
  unfold flagDoubleStep at h
  by_cases hp : m.Piece = "p"
  · rw [if_pos hp] at h
    cases hm : ps[i]? with
    | none => rw [hm] at h; simp at h
    | some mover =>
      rw [hm] at h
      simp only at h
      by_cases hd : isub m.Begin.Y m.End.Y = imul 2 (ineg mover.Color)
      · rw [if_pos hd] at h
        obtain ⟨hl, hg⟩ := setAt_getElem? h
        refine ⟨hl, fun j => ?_⟩
        rw [hg j]
        by_cases hij : i = j
        · subst hij; simp [hm, hp, hd]
        · simp [hij]
      · rw [if_neg hd] at h
        cases h
        refine ⟨rfl, fun j => ?_⟩
        by_cases hij : i = j
        · subst hij; simp [hm, hd]
        · simp [hij]
  · rw [if_neg hp] at h
    cases h
    exact ⟨rfl, fun j => by simp [hp]⟩

/-- Shape of the board that lines 67-104 leave, slot by slot. -/
theorem applyMove_some {b b1 : Board} {m move : Move} {s : Located}
    (h : applyMove b m move s = some b1) :
    ∃ mover ps1, b.Board[s.pieceindex]? = some mover ∧
      ps1 = b.Board.modify (fun p => { p with Position := move.End }) s.pieceindex ∧
      b1.Turn = imul b.Turn (-1) ∧ b1.Lastmove = m ∧
      b1.Board.length = b.Board.length ∧
      ∀ j, b1.Board[j]? = (b.Board[j]?).map
        (pieceAfter m move s.pieceindex (s.capture || enPassantBranch m s)
          (victimIndex m s ps1) mover.Color j) := by
  unfold applyMove at h
  simp only [Option.bind_eq_some, Option.some.injEq] at h
  obtain ⟨ps1, h1, ps2, h2, ps3, h3, ps4, h4, ps6, h6, hb⟩ := h
  obtain ⟨hlt, h1⟩ := setAt_eq_some.mp h1
  obtain ⟨mover, hmover⟩ : ∃ mover, b.Board[s.pieceindex]? = some mover :=
    ⟨b.Board[s.pieceindex], List.getElem?_eq_getElem hlt⟩
  subst h1
  refine ⟨mover, _, hmover, rfl, by rw [← hb], by rw [← hb], ?_, ?_⟩
  · rw [← hb]
    simp only
    rw [(flagDoubleStep_getElem? h6).1, List.length_map, (iteSetAt_getElem? h4).1,
      (setAt_getElem? h3).1, (iteSetAt_getElem? h2).1, List.length_modify]
  · intro j
    rw [← hb]
    simp only
    rw [(flagDoubleStep_getElem? h6).2, List.getElem?_map, (iteSetAt_getElem? h4).2,
      (setAt_getElem? h3).2, (iteSetAt_getElem? h2).2, List.getElem?_modify]
    cases hj : b.Board[j]? with
    | none => simp
    | some p =>
      have hcol : s.pieceindex = j → p.Color = mover.Color := by
        intro e; subst e; rw [hmover] at hj; cases hj; rfl
      simp only [Option.map_some', Option.map_eq_map, Option.some.injEq]
      generalize (s.capture || enPassantBranch m s) = cap
      generalize victimIndex m s _ = v
      by_cases hij : s.pieceindex = j
      · have hc := hcol hij
        subst hij
        by_cases hvj : v = s.pieceindex
        · subst hvj
          by_cases hpw : m.Piece = "p"
          · by_cases hd : isub m.Begin.Y m.End.Y = imul 2 (ineg mover.Color) <;> cases cap <;>
              simp [pieceAfter, hpw, hd, hc]
          · by_cases hk : m.Piece = "k" ∨ m.Piece = "r" <;> cases cap <;>
              simp [pieceAfter, hpw, hk, hc]
        · have hjv : ¬ s.pieceindex = v := fun e => hvj e.symm
          by_cases hpw : m.Piece = "p"
          · by_cases hd : isub m.Begin.Y m.End.Y = imul 2 (ineg mover.Color) <;> cases cap <;>
              simp [pieceAfter, hpw, hd, hc, hvj, hjv]
          · by_cases hk : m.Piece = "k" ∨ m.Piece = "r" <;> cases cap <;>
              simp [pieceAfter, hpw, hk, hc, hvj, hjv]
      · have hji : ¬ j = s.pieceindex := fun e => hij e.symm
        by_cases hvj : v = j
        · subst hvj
          cases cap <;> simp [pieceAfter, hij, hji]
        · have hjv : ¬ j = v := fun e => hvj e.symm
          cases cap <;> simp [pieceAfter, hij, hji, hvj, hjv]

theorem flagDoubleStep_isSome (m : Move) (ps : List Piece) (i : Nat) (h : i < ps.length) :
    ∃ ps1, flagDoubleStep m i ps = some ps1 := by
  unfold flagDoubleStep
  split
  · rw [List.getElem?_eq_getElem h]
    simp only
    split
    · exact ⟨_, setAt_eq_some.mpr ⟨h, rfl⟩⟩
    · exact ⟨_, rfl⟩
  · exact ⟨_, rfl⟩

/-- Lines 67-104 run to their end once the mover's slot and, when a capture is
made, the victim's slot lie inside the slice. -/
theorem applyMove_isSome (b : Board) (m move : Move) (s : Located)
    (hp : s.pieceindex < b.Board.length)
    (hv : (s.capture || enPassantBranch m s) = true →
      victimIndex m s (b.Board.modify (fun p => { p with Position := move.End }) s.pieceindex)
        < b.Board.length) :
    ∃ b1, applyMove b m move s = some b1 := by
  unfold applyMove
  rw [setAt_eq_some.mpr ⟨hp, rfl⟩]
  simp only [Option.some_bind]
  obtain ⟨ps2, h2, hl2⟩ : ∃ ps2, (if (s.capture || enPassantBranch m s) = true then
      setAt (b.Board.modify (fun p => { p with Position := move.End }) s.pieceindex)
        (victimIndex m s (b.Board.modify (fun p => { p with Position := move.End })
          s.pieceindex)) (fun p => { p with Position := { X := 0, Y := 0 } })
      else some (b.Board.modify (fun p => { p with Position := move.End }) s.pieceindex))
        = some ps2 ∧ ps2.length = b.Board.length := by
    by_cases hc : (s.capture || enPassantBranch m s) = true
    · rw [if_pos hc]
      exact ⟨_, setAt_eq_some.mpr ⟨by simpa using hv hc, rfl⟩, by simp⟩
    · rw [if_neg hc]
      exact ⟨_, rfl, by simp⟩
  rw [h2]
  simp only [Option.some_bind]
  rw [setAt_eq_some.mpr ⟨by rw [hl2]; exact hp, rfl⟩]
  simp only [Option.some_bind]
  obtain ⟨ps4, h4, hl4⟩ : ∃ ps4, (if m.Piece = "k" ∨ m.Piece = "r" then
      setAt (ps2.modify (fun p => { p with Can_double_move := false }) s.pieceindex)
        s.pieceindex (fun p => { p with Can_castle := false })
      else some (ps2.modify (fun p => { p with Can_double_move := false }) s.pieceindex))
        = some ps4 ∧ ps4.length = b.Board.length := by
    by_cases hc : m.Piece = "k" ∨ m.Piece = "r"
    · rw [if_pos hc]
      exact ⟨_, setAt_eq_some.mpr ⟨by simpa [hl2] using hp, rfl⟩, by simp [hl2]⟩
    · rw [if_neg hc]
      exact ⟨_, rfl, by simp [hl2]⟩
  rw [h4]
  simp only [Option.some_bind]
  obtain ⟨ps6, h6⟩ := flagDoubleStep_isSome m
    (ps4.map (fun p => { p with Can_en_passant := false })) s.pieceindex
    (by simpa [hl4] using hp)
  rw [h6]
  exact ⟨_, rfl⟩

theorem lt_length_of_getElem? {ps : List Piece} {i : Nat} {p : Piece}
    (h : ps[i]? = some p) : i < ps.length := by
  by_contra hn
  rw [List.getElem?_eq_none (Nat.le_of_not_lt hn)] at h
  cases h

theorem enPassantBranch_capture {m : Move} {s : Located} (h : enPassantBranch m s = true) :
    s.capture = false := by
  unfold enPassantBranch at h
  cases hc : s.capture
  · rfl
  · simp [hc] at h

/-- Every index `Move` uses on its ordinary path lies inside the slice. -/
theorem victimIndex_lt {m : Move} {turn : Int} {all ps1 : List Piece} {n : Nat} {s : Located}
    (hinv : LocInv m turn all n s) (hf : s.piecefound = true) (hl : ps1.length = all.length)
    (hc : (s.capture || enPassantBranch m s) = true) :
    victimIndex m s ps1 < all.length := by
  obtain ⟨p, hp, _⟩ := hinv.found hf
  have hpl := lt_length_of_getElem? hp
  unfold victimIndex
  by_cases he : enPassantBranch m s = true
  · rw [if_pos he]
    have h0 := (hinv.nocap (enPassantBranch_capture he)).1
    have := findVictim_lt m.End.X m.Begin.Y ps1 0 s.capturedpiece (by rw [h0, hl]; omega)
    rw [hl] at this
    omega
  · rw [if_neg he]
    have hcap : s.capture = true := by
      cases hcc : s.capture
      · simp [hcc, he] at hc
      · rfl
    obtain ⟨q, hq, _⟩ := hinv.cap hcap
    exact lt_length_of_getElem? hq

/-- The three ways the ordinary path of `Move` ends, none of them a panic. -/
theorem Move_ordinary (env : Env) (b : Board) (m : Move) (hd : isCastleDispatch m = false) :
    ((locate m b.Turn b.Board 0 {}).piecefound = false ∧
        b.Move env m = .returned b (some "func Move: invalid piece")) ∨
    ((locate m b.Turn b.Board 0 {}).piecefound = true ∧
        (env.legalMoves b (locate m b.Turn b.Board 0 {}).pieceindex true).find?
          (fun move => m.goEq move) = none ∧
        b.Move env m = .returned b (some "func Move: illegal move")) ∨
    (∃ move b1, (locate m b.Turn b.Board 0 {}).piecefound = true ∧
        (env.legalMoves b (locate m b.Turn b.Board 0 {}).pieceindex true).find?
          (fun move => m.goEq move) = some move ∧
        applyMove b m move (locate m b.Turn b.Board 0 {}) = some b1 ∧
        b.Move env m = .returned b1 none) := by
  have hinv := locate_spec m b
  unfold Board.Move
  rw [hd]
  simp only [Bool.false_eq_true, if_false]
  cases hf : (locate m b.Turn b.Board 0 {}).piecefound
  · left
    exact ⟨rfl, by simp⟩
  · right
    obtain ⟨p, hp, _⟩ := hinv.found hf
    simp only [Bool.not_true, Bool.false_eq_true, if_false, hp]
    cases hfind : (env.legalMoves b (locate m b.Turn b.Board 0 {}).pieceindex true).find?
        (fun move => m.goEq move) with
    | none => left; exact ⟨trivial, rfl, rfl⟩
    | some move =>
      right
      obtain ⟨b1, hb1⟩ := applyMove_isSome b m move (locate m b.Turn b.Board 0 {})
        (lt_length_of_getElem? hp)
        (fun hc => victimIndex_lt hinv hf (by simp) hc)
      exact ⟨move, b1, trivial, rfl, hb1, by simp [hb1]⟩

theorem castlePlace_turn {env : Env} {b b1 : Board} {m : Move} {s : Castling}
    {e : Option String} (h : castlePlace env b m s = .returned b1 e) :
    b1.Turn = b.Turn ∧ b1.Lastmove = b.Lastmove := by
  unfold castlePlace at h
  split at h
  · cases h
  · split at h
    · split at h
      · cases h
      · cases h; exact ⟨rfl, rfl⟩
    · split at h
      · cases h
      · split at h
        · cases h
        · cases h; exact ⟨rfl, rfl⟩

/-- `castleHandler` writes neither `Turn` nor `Lastmove`. -/
theorem castleHandler_turn {env : Env} {b b1 : Board} {m : Move} {e : Option String}
    (h : b.castleHandler env m = .returned b1 e) :
    b1.Turn = b.Turn ∧ b1.Lastmove = b.Lastmove := by
  unfold Board.castleHandler at h
  split at h
  · cases h; exact ⟨rfl, rfl⟩
  · simp only at h
    split at h
    · cases h
    · split at h
      · cases h; exact ⟨rfl, rfl⟩
      · split at h
        · cases h; exact ⟨rfl, rfl⟩
        · split at h
          · cases h
          · split at h
            · cases h; exact ⟨rfl, rfl⟩
            · split at h
              · cases h; exact ⟨rfl, rfl⟩
              · exact castlePlace_turn h

theorem mem_of_getElem? {ps : List Piece} {i : Nat} {p : Piece} (h : ps[i]? = some p) :
    p ∈ ps := by
  have hl := lt_length_of_getElem? h
  rw [List.getElem?_eq_getElem hl] at h
  cases h
  exact List.getElem_mem hl

/-- `piecefound` is set exactly when some slot passes the test of line 48. -/
theorem locate_piecefound_iff (m : Move) (b : Board) :
    (locate m b.Turn b.Board 0 {}).piecefound = true ↔
      ∃ p ∈ b.Board, p.Position = m.Begin ∧ p.Name = m.Piece ∧ p.Color = b.Turn := by
  have hinv := locate_spec m b
  constructor
  · intro hf
    obtain ⟨p, hp, h1, h2, h3⟩ := hinv.found hf
    exact ⟨p, mem_of_getElem? hp, h1.symm, h2.symm, h3.symm⟩
  · rintro ⟨p, hp, h1, h2, h3⟩
    by_contra hn
    obtain ⟨k, hk, hkp⟩ := List.getElem_of_mem hp
    exact hinv.nofound (by simpa using hn) k hk p
      (by rw [List.getElem?_eq_getElem hk, hkp]) ⟨h1.symm, h2.symm, h3.symm⟩

/-- C1. Ordinary path: when `Move` returns an error, which is then one of
"invalid piece" and "illegal move", the board it leaves is the board it was
given (all pieces, `Turn` and `Lastmove`). -/
theorem Move_error_leaves_board (env : Env) (b b1 : Board) (m : Move) (e : String)
    (hd : isCastleDispatch m = false) (h : b.Move env m = .returned b1 (some e)) :
    b1 = b ∧ (e = "func Move: invalid piece" ∨ e = "func Move: illegal move") := by
  rcases Move_ordinary env b m hd with ⟨_, hr⟩ | ⟨_, _, hr⟩ | ⟨move, b2, _, _, _, hr⟩
  · rw [hr] at h; cases h; exact ⟨rfl, Or.inl rfl⟩
  · rw [hr] at h; cases h; exact ⟨rfl, Or.inr rfl⟩
  · rw [hr] at h; cases h

theorem Move_error_leaves_board_witness :
    isCastleDispatch (moveOf "r" 1 1 4 4) = false ∧
      rookBoard.Move rookEnv (moveOf "r" 1 1 4 4) =
        .returned rookBoard (some "func Move: illegal move") ∧
      (rookBoard = rookBoard ∧
        ("func Move: illegal move" = "func Move: invalid piece" ∨
          "func Move: illegal move" = "func Move: illegal move")) :=
  ⟨by decide, by decide,
    Move_error_leaves_board rookEnv rookBoard rookBoard (moveOf "r" 1 1 4 4)
      "func Move: illegal move" (by decide) (by decide)⟩

/-- C4. Ordinary path: `Move` returns the "invalid piece" error exactly when no
slot of the board stands on `m.Begin` with name `m.Piece` and colour `Turn`; so
a move naming only pieces of the side not to move is refused and the board kept. -/
theorem Move_invalid_piece_iff (env : Env) (b : Board) (m : Move)
    (hd : isCastleDispatch m = false) :
    ((∃ b1, b.Move env m = .returned b1 (some "func Move: invalid piece")) ↔
        ¬ ∃ p ∈ b.Board, p.Position = m.Begin ∧ p.Name = m.Piece ∧ p.Color = b.Turn) ∧
      ((∀ p ∈ b.Board, p.Position = m.Begin → p.Name = m.Piece → p.Color ≠ b.Turn) →
        b.Move env m = .returned b (some "func Move: invalid piece")) := by
  have hiff := locate_piecefound_iff m b
  have key : (locate m b.Turn b.Board 0 {}).piecefound = false →
      b.Move env m = .returned b (some "func Move: invalid piece") := by
    intro hf
    rcases Move_ordinary env b m hd with ⟨_, hr⟩ | ⟨hf2, _⟩ | ⟨_, _, hf2, _⟩
    · exact hr
    · rw [hf] at hf2; cases hf2
    · rw [hf] at hf2; cases hf2
  refine ⟨⟨?_, ?_⟩, ?_⟩
  · rintro ⟨b1, h⟩ hex
    have hf := hiff.mpr hex
    rcases Move_ordinary env b m hd with ⟨hf2, _⟩ | ⟨_, _, hr⟩ | ⟨_, _, _, _, _, hr⟩
    · rw [hf] at hf2; cases hf2
    · rw [hr] at h
      have : "func Move: illegal move" = "func Move: invalid piece" := by
        injection h with _ h2
        injection h2
      exact absurd this (by decide)
    · rw [hr] at h; cases h
  · intro hne
    refine ⟨b, key ?_⟩
    cases hf : (locate m b.Turn b.Board 0 {}).piecefound
    · rfl
    · exact absurd (hiff.mp hf) hne
  · intro hall
    apply key
    cases hf : (locate m b.Turn b.Board 0 {}).piecefound
    · rfl
    · obtain ⟨p, hp, h1, h2, h3⟩ := hiff.mp hf
      exact absurd h3 (hall p hp h1 h2)

theorem Move_invalid_piece_iff_witness :
    isCastleDispatch (moveOf "n" 2 1 3 3) = false ∧
      rookBoard.Move rookEnv (moveOf "n" 2 1 3 3) =
        .returned rookBoard (some "func Move: invalid piece") :=
  ⟨by decide,
    (Move_invalid_piece_iff rookEnv rookBoard (moveOf "n" 2 1 3 3) (by decide)).2 (by decide)⟩

theorem imul_neg_one (x : Int) : imul x (-1) = ineg x := by
  unfold imul ineg
  rw [Int.mul_neg_one]

theorem ineg_of_inRange (x : Int) (h1 : -9223372036854775808 < x)
    (h2 : x < 9223372036854775808) : ineg x = -x := by
  unfold ineg wrap64
  omega

/-- C6. When `Move` returns nil (either path) the side to move is negated, as
Go negates an `int` (the plain negation for every value but the least one), and
`Lastmove` is the move; when it returns an error both are as before. -/
theorem Move_turn_and_lastmove (env : Env) (b b1 : Board) (m : Move) (e : Option String)
    (h : b.Move env m = .returned b1 e) :
    (e = none → b1.Turn = ineg b.Turn ∧ b1.Lastmove = m ∧
        (-9223372036854775808 < b.Turn → b.Turn < 9223372036854775808 →
          b1.Turn = -b.Turn)) ∧
      (e ≠ none → b1.Turn = b.Turn ∧ b1.Lastmove = b.Lastmove) := by
  have main : (e = none → b1.Turn = ineg b.Turn ∧ b1.Lastmove = m) ∧
      (e ≠ none → b1.Turn = b.Turn ∧ b1.Lastmove = b.Lastmove) := by
    cases hd : isCastleDispatch m
    · rcases Move_ordinary env b m hd with ⟨_, hr⟩ | ⟨_, _, hr⟩ | ⟨move, b2, _, _, ha, hr⟩
      · rw [hr] at h; cases h; exact ⟨fun h0 => (by cases h0), fun _ => ⟨rfl, rfl⟩⟩
      · rw [hr] at h; cases h; exact ⟨fun h0 => (by cases h0), fun _ => ⟨rfl, rfl⟩⟩
      · rw [hr] at h; cases h
        obtain ⟨_, _, _, _, ht, hl, _⟩ := applyMove_some ha
        exact ⟨fun _ => ⟨by rw [ht, imul_neg_one], hl⟩, fun h0 => absurd rfl h0⟩
    · unfold Board.Move at h
      rw [hd] at h
      simp only [if_true] at h
      cases hc : b.castleHandler env m with
      | panicked => rw [hc] at h; cases h
      | returned b2 e2 =>
        rw [hc] at h
        obtain ⟨ht, hl⟩ := castleHandler_turn hc
        cases e2 with
        | none =>
          cases h
          exact ⟨fun _ => ⟨by simp only; rw [ht, imul_neg_one], rfl⟩, fun h0 => absurd rfl h0⟩
        | some msg =>
          cases h
          exact ⟨fun h0 => (by cases h0), fun _ => ⟨ht, hl⟩⟩
  refine ⟨fun he => ⟨(main.1 he).1, (main.1 he).2, fun h1 h2 => ?_⟩, main.2⟩
  rw [(main.1 he).1, ineg_of_inRange _ h1 h2]

theorem Move_turn_and_lastmove_witness :
    rookBoard.Move rookEnv (moveOf "r" 1 1 2 1) = .returned rookBoardAfter none ∧
      rookBoardAfter.Turn = ineg rookBoard.Turn ∧
      rookBoardAfter.Lastmove = moveOf "r" 1 1 2 1 :=
  ⟨by decide,
    ((Move_turn_and_lastmove rookEnv rookBoard rookBoardAfter (moveOf "r" 1 1 2 1) none
      (by decide)).1 rfl).1,
    ((Move_turn_and_lastmove rookEnv rookBoard rookBoardAfter (moveOf "r" 1 1 2 1) none
      (by decide)).1 rfl).2.1⟩

theorem goEq_fields {m move : Move} (h : m.goEq move = true) :
    move.Piece = m.Piece ∧ move.Begin = m.Begin ∧ move.End = m.End := by
  unfold Move.goEq at h
  simp only [Bool.and_eq_true, beq_iff_eq] at h
  exact ⟨h.1.1.1.symm, h.1.1.2.symm, h.1.2.symm⟩

theorem isub_self (x : Int) : isub x x = 0 := by
  unfold isub wrap64
  simp

/-- The en-passant loop returns the first slot standing on `(x, y)`, or the
value `capturedpiece` had when no slot stands there. -/
theorem findVictim_spec (x y : Int) (all : List Piece) :
    ∀ (ps : List Piece) (i c : Nat), (∀ k, ps[k]? = all[i + k]?) →
      (∀ k < i, ∀ r, all[k]? = some r → ¬ (r.Position.X = x ∧ r.Position.Y = y)) →
      (∃ q, all[findVictim x y ps i c]? = some q ∧ (q.Position.X = x ∧ q.Position.Y = y) ∧
          ∀ k < findVictim x y ps i c, ∀ r, all[k]? = some r →
            ¬ (r.Position.X = x ∧ r.Position.Y = y)) ∨
        (findVictim x y ps i c = c ∧
          ∀ (k : Nat) (r : Piece), all[k]? = some r →
            ¬ (r.Position.X = x ∧ r.Position.Y = y))
  | [], i, c, hps, hpre => by
    right
    refine ⟨rfl, fun k r hr => ?_⟩
    by_cases hk : k < i
    · exact hpre k hk r hr
    · have := hps (k - i)
      rw [show i + (k - i) = k by omega, hr] at this
      simp at this
  | p :: ps, i, c, hps, hpre => by
    have hp : all[i]? = some p := by simpa using (hps 0).symm
    unfold findVictim
    by_cases h : p.Position.X = x ∧ p.Position.Y = y
    · rw [if_pos h]
      exact Or.inl ⟨p, hp, h, hpre⟩
    · rw [if_neg h]
      apply findVictim_spec x y all ps (i + 1) c
        (fun k => by simpa [Nat.add_assoc, Nat.add_comm 1 k] using hps (k + 1))
      intro k hk r hr
      rcases Nat.lt_succ_iff_lt_or_eq.mp hk with hlt | heq
      · exact hpre k hlt r hr
      · subst heq; rw [hp] at hr; cases hr; exact h

theorem enPassantBranch_fields {m : Move} {s : Located} (h : enPassantBranch m s = true) :
    m.Piece = "p" ∧ (isub m.Begin.X m.End.X = 1 ∨ isub m.End.X m.Begin.X = 1) := by
  unfold enPassantBranch at h
  simp only [Bool.and_eq_true, Bool.or_eq_true, beq_iff_eq] at h
  exact ⟨h.1.2, h.2⟩

theorem getElem?_modify_position (ps : List Piece) (i k : Nat) (sq : Square) (r : Piece)
    (h : (ps.modify (fun p => { p with Position := sq }) i)[k]? = some r) :
    (k = i ∧ r.Position = sq) ∨ (k ≠ i ∧ ps[k]? = some r) := by
  rw [List.getElem?_modify] at h
  cases hk : ps[k]? with
  | none => rw [hk] at h; simp at h
  | some r0 =>
    rw [hk] at h
    simp only [Option.map_eq_map, Option.map_some', Option.some.injEq] at h
    by_cases hik : i = k
    · rw [if_pos hik] at h
      exact Or.inl ⟨hik.symm, by rw [← h]⟩
    · rw [if_neg hik] at h
      exact Or.inr ⟨fun e => hik e.symm, by rw [h]⟩

/-- Under the pawn rule of the specification, the slot the en-passant branch of
`Move` sends to the sentinel is the first slot of the board standing on
`(m.End.X, m.Begin.Y)`, and it is not the mover. -/
theorem enPassant_victim {env : Env} {b : Board} {m move : Move} {s : Located}
    (hinv : LocInv m b.Turn b.Board b.Board.length s) (hf : s.piecefound = true)
    (hmem : move ∈ env.legalMoves b s.pieceindex true) (hgo : m.goEq move = true)
    (hrule : PawnStepRule env b s.pieceindex) (he : enPassantBranch m s = true) :
    victimIndex m s (b.Board.modify (fun p => { p with Position := move.End }) s.pieceindex)
        ≠ s.pieceindex ∧
      ∃ q, b.Board[victimIndex m s
          (b.Board.modify (fun p => { p with Position := move.End }) s.pieceindex)]? = some q ∧
        q.Position = { X := m.End.X, Y := m.Begin.Y } ∧
        ∀ k < victimIndex m s
            (b.Board.modify (fun p => { p with Position := move.End }) s.pieceindex),
          ∀ r, b.Board[k]? = some r → r.Position ≠ { X := m.End.X, Y := m.Begin.Y } := by
  obtain ⟨hpawn, hfile⟩ := enPassantBranch_fields he
  obtain ⟨hmp, hmb, hme⟩ := goEq_fields hgo
  obtain ⟨p0, hp0, hbeg, _, hcol⟩ := hinv.found hf
  have hnocap := (hinv.nocap (enPassantBranch_capture he)).2
  have hx : m.End.X ≠ m.Begin.X := by
    intro e
    rcases hfile with h1 | h1
    · rw [e, isub_self] at h1; cases h1
    · rw [e, isub_self] at h1; cases h1
  obtain ⟨hy, hvict⟩ := hrule p0 hp0 move hmem (by rw [hmp, hpawn])
    (by rw [hmb, hme]; exact hfile)
  rw [hmb, hme] at hy hvict
  have hadj : ∃ (k0 : Nat) (q0 : Piece), b.Board[k0]? = some q0 ∧
      q0.Position = { X := m.End.X, Y := m.Begin.Y } := by
    rcases hvict with ⟨q, hq, hqp, hqc⟩ | ⟨q, hq, hqp, _⟩
    · exfalso
      obtain ⟨k, hk, hkq⟩ := List.getElem_of_mem hq
      have hmov := hnocap k hk q (by rw [List.getElem?_eq_getElem hk, hkq])
        ⟨hqp.symm, by rw [hqc, hcol]⟩
      exact hx (by rw [← hqp, ← hmov.1])
    · obtain ⟨k, hk, hkq⟩ := List.getElem_of_mem hq
      exact ⟨k, q, by rw [List.getElem?_eq_getElem hk, hkq], hqp⟩
  have hat : ∀ r : Piece, (r.Position.X = m.End.X ∧ r.Position.Y = m.Begin.Y) ↔
      r.Position = { X := m.End.X, Y := m.Begin.Y } := by
    intro r
    constructor
    · rintro ⟨h1, h2⟩
      cases hr : r.Position
      rw [hr] at h1 h2
      simp only at h1 h2
      rw [h1, h2]
    · intro h
      rw [h]
      exact ⟨rfl, rfl⟩
  have hback : ∀ (k : Nat) (r : Piece),
      (b.Board.modify (fun p => { p with Position := move.End }) s.pieceindex)[k]? = some r →
      r.Position = { X := m.End.X, Y := m.Begin.Y } → k ≠ s.pieceindex ∧ b.Board[k]? = some r := by
    intro k r hr hpos
    rcases getElem?_modify_position _ _ _ _ _ hr with ⟨_, h2⟩ | h2
    · exfalso
      rw [hpos, hme] at h2
      exact hy (by rw [← h2])
    · exact h2
  have hforth : ∀ (k : Nat) (r : Piece), b.Board[k]? = some r →
      r.Position = { X := m.End.X, Y := m.Begin.Y } → k ≠ s.pieceindex ∧
      (b.Board.modify (fun p => { p with Position := move.End }) s.pieceindex)[k]? = some r := by
    intro k r hr hpos
    have hk : k ≠ s.pieceindex := by
      intro e
      subst e
      rw [hp0] at hr
      cases hr
      rw [← hbeg] at hpos
      exact hx (by rw [hpos])
    exact ⟨hk, by rw [List.getElem?_modify_ne _ _ (fun e => hk e.symm)]; exact hr⟩
  have hv : victimIndex m s
      (b.Board.modify (fun p => { p with Position := move.End }) s.pieceindex) =
      findVictim m.End.X m.Begin.Y
        (b.Board.modify (fun p => { p with Position := move.End }) s.pieceindex) 0
        s.capturedpiece := by
    unfold victimIndex
    rw [if_pos he]
  rw [hv]
  rcases findVictim_spec m.End.X m.Begin.Y
      (b.Board.modify (fun p => { p with Position := move.End }) s.pieceindex)
      (b.Board.modify (fun p => { p with Position := move.End }) s.pieceindex)
      0 s.capturedpiece (fun k => by simp)
      (fun k hk => by omega) with ⟨q, hq, hqat, hfirst⟩ | ⟨_, hnone⟩
  · obtain ⟨hne, hq0⟩ := hback _ q hq ((hat q).mp hqat)
    refine ⟨hne, q, hq0, (hat q).mp hqat, fun k hk r hr hpos => ?_⟩
    exact hfirst k hk r (hforth k r hr hpos).2 ((hat r).mpr hpos)
  · exfalso
    obtain ⟨k0, q0, hq0, hpos0⟩ := hadj
    exact hnone k0 q0 (hforth k0 q0 hq0 hpos0).2 ((hat q0).mpr hpos0)

/-- A nil return of the ordinary path, unfolded: the legal move that matched, the
mover's slot, and the closed form of every slot of the board returned. -/
theorem Move_success_shape {env : Env} {b b1 : Board} {m : Move}
    (hd : isCastleDispatch m = false) (h : b.Move env m = .returned b1 none) :
    ∃ move mover,
      (locate m b.Turn b.Board 0 {}).piecefound = true ∧
      move ∈ env.legalMoves b (locate m b.Turn b.Board 0 {}).pieceindex true ∧
      m.goEq move = true ∧
      b.Board[(locate m b.Turn b.Board 0 {}).pieceindex]? = some mover ∧
      isMover m b.Turn mover ∧
      b1.Board.length = b.Board.length ∧
      ∀ j, b1.Board[j]? = (b.Board[j]?).map
        (pieceAfter m move (locate m b.Turn b.Board 0 {}).pieceindex
          ((locate m b.Turn b.Board 0 {}).capture ||
            enPassantBranch m (locate m b.Turn b.Board 0 {}))
          (victimIndex m (locate m b.Turn b.Board 0 {})
            (b.Board.modify (fun p => { p with Position := move.End })
              (locate m b.Turn b.Board 0 {}).pieceindex))
          mover.Color j) := by
  rcases Move_ordinary env b m hd with ⟨_, hr⟩ | ⟨_, _, hr⟩ | ⟨move, b2, hf, hfind, ha, hr⟩
  · rw [hr] at h; cases h
  · rw [hr] at h; cases h
  · rw [hr] at h
    cases h
    obtain ⟨mover, ps1, hmover, hps1, _, _, hlen, hall⟩ := applyMove_some ha
    subst hps1
    obtain ⟨p, hp, hmv⟩ := (locate_spec m b).found hf
    rw [hmover] at hp
    cases hp
    exact ⟨move, mover, hf, List.mem_of_find?_eq_some hfind, List.find?_some hfind, hmover,
      hmv, hlen, hall⟩

/-- Under the pawn rule of the specification the slot sent to the sentinel is
never the mover's. -/
theorem victim_ne_mover {env : Env} {b : Board} {m move : Move} {s : Located}
    (hinv : LocInv m b.Turn b.Board b.Board.length s) (hf : s.piecefound = true)
    (hmem : move ∈ env.legalMoves b s.pieceindex true) (hgo : m.goEq move = true)
    (hrule : PawnStepRule env b s.pieceindex)
    (hc : (s.capture || enPassantBranch m s) = true) :
    victimIndex m s (b.Board.modify (fun p => { p with Position := move.End }) s.pieceindex)
      ≠ s.pieceindex := by
  by_cases he : enPassantBranch m s = true
  · exact (enPassant_victim hinv hf hmem hgo hrule he).1
  · have hcap : s.capture = true := by
      cases hcc : s.capture
      · simp [hcc, he] at hc
      · rfl
    unfold victimIndex
    rw [if_neg he]
    obtain ⟨q, hq, _, hnm⟩ := hinv.cap hcap
    obtain ⟨p, hp, hmv⟩ := hinv.found hf
    intro e
    rw [e, hp] at hq
    cases hq
    exact hnm hmv

theorem any_goEq_iff_find? (m : Move) (l : List Move) :
    (l.any (fun move => m.goEq move) = true ↔ ∃ move, l.find? (fun move => m.goEq move) = some move) ∧
      (l.any (fun move => m.goEq move) = false ↔ l.find? (fun move => m.goEq move) = none) := by
  induction l with
  | nil => simp
  | cons a l ih =>
    by_cases ha : m.goEq a = true
    · simp [List.find?, ha]
    · simp only [Bool.not_eq_true] at ha
      simp only [List.any_cons, ha, Bool.false_or, List.find?]
      exact ih

/-- C3. Ordinary path, a piece of the side to move named by the move standing
on `m.Begin`: the slot `Move` locates is such a piece; `Move` returns nil exactly
when some move of that slot's `legalMoves(b, true)` equals `*m` (Go `==`), and
the "illegal move" error, board untouched, otherwise.  After a nil return the
located slot stands on `m.End`; this last part is derived from the pawn rule
that the specification gives for the absent `legalMoves`. -/
theorem Move_legality_gate (env : Env) (b : Board) (m : Move)
    (hd : isCastleDispatch m = false)
    (hex : ∃ p ∈ b.Board, p.Position = m.Begin ∧ p.Name = m.Piece ∧ p.Color = b.Turn) :
    (∃ p, b.Board[(locate m b.Turn b.Board 0 {}).pieceindex]? = some p ∧
        p.Position = m.Begin ∧ p.Name = m.Piece ∧ p.Color = b.Turn) ∧
      ((∃ b1, b.Move env m = .returned b1 none) ↔
        (env.legalMoves b (locate m b.Turn b.Board 0 {}).pieceindex true).any
          (fun move => m.goEq move) = true) ∧
      ((env.legalMoves b (locate m b.Turn b.Board 0 {}).pieceindex true).any
          (fun move => m.goEq move) = false →
        b.Move env m = .returned b (some "func Move: illegal move")) ∧
      (PawnStepRule env b (locate m b.Turn b.Board 0 {}).pieceindex →
        ∀ b1, b.Move env m = .returned b1 none →
          ∃ p1, b1.Board[(locate m b.Turn b.Board 0 {}).pieceindex]? = some p1 ∧
            p1.Position = m.End) := by
  have hinv := locate_spec m b
  have hf := (locate_piecefound_iff m b).mpr hex
  obtain ⟨p, hp, h1, h2, h3⟩ := hinv.found hf
  have hany := any_goEq_iff_find? m
    (env.legalMoves b (locate m b.Turn b.Board 0 {}).pieceindex true)
  refine ⟨⟨p, hp, h1.symm, h2.symm, h3.symm⟩, ⟨?_, ?_⟩, ?_, ?_⟩
  · rintro ⟨b1, h⟩
    obtain ⟨move, _, _, hmem, hgo, _⟩ := Move_success_shape hd h
    exact List.any_eq_true.mpr ⟨move, hmem, hgo⟩
  · intro ha
    obtain ⟨move, hfind⟩ := hany.1.mp ha
    rcases Move_ordinary env b m hd with ⟨hf2, _⟩ | ⟨_, hnone, _⟩ | ⟨_, b1, _, _, _, hr⟩
    · rw [hf] at hf2; cases hf2
    · rw [hfind] at hnone; cases hnone
    · exact ⟨b1, hr⟩
  · intro ha
    have hnone := hany.2.mp ha
    rcases Move_ordinary env b m hd with ⟨hf2, _⟩ | ⟨_, _, hr⟩ | ⟨_, _, _, hsome, _⟩
    · rw [hf] at hf2; cases hf2
    · exact hr
    · rw [hnone] at hsome; cases hsome
  · intro hrule b1 h
    obtain ⟨move, mover, _, hmem, hgo, hmover, _, _, hall⟩ := Move_success_shape hd h
    refine ⟨_, by rw [hall, hmover]; rfl, ?_⟩
    have hne : ¬ (((locate m b.Turn b.Board 0 {}).capture ||
        enPassantBranch m (locate m b.Turn b.Board 0 {})) = true ∧
        (locate m b.Turn b.Board 0 {}).pieceindex =
          victimIndex m (locate m b.Turn b.Board 0 {})
            (b.Board.modify (fun p => { p with Position := move.End })
              (locate m b.Turn b.Board 0 {}).pieceindex)) :=
      fun hc => victim_ne_mover hinv hf hmem hgo hrule hc.1 hc.2.symm
    simp only [pieceAfter, if_neg hne, if_true]
    exact (goEq_fields hgo).2.2

theorem Move_legality_gate_witness :
    isCastleDispatch (moveOf "p" 3 5 2 6) = false ∧
      PawnStepRule passantEnv passantBoard 1 ∧
      passantBoard.Move passantEnv (moveOf "p" 3 5 2 6) = .returned passantBoardAfter none ∧
      ∃ p1, passantBoardAfter.Board[1]? = some p1 ∧ p1.Position = (moveOf "p" 3 5 2 6).End :=
  ⟨by decide, by unfold PawnStepRule; decide, by decide,
    (Move_legality_gate passantEnv passantBoard (moveOf "p" 3 5 2 6) (by decide)
      (by decide)).2.2.2 (by unfold PawnStepRule; decide) passantBoardAfter (by decide)⟩

/-- C7. Ordinary capture.  On a board where two slots share a square only at
the sentinel `(0,0)`, after a nil return of the ordinary path every slot that
stood on `m.End` with the colour `Turn * -1`, other than `Turn`, has position
`(0,0)`, and the located mover stands on `m.End`. -/
theorem Move_captures_on_destination (env : Env) (b b1 : Board) (m : Move)
    (hd : isCastleDispatch m = false) (h : b.Move env m = .returned b1 none)
    (huniq : ∀ (i j : Nat) (p q : Piece), b.Board[i]? = some p → b.Board[j]? = some q →
      p.Position = q.Position → p.Position ≠ { X := 0, Y := 0 } → i = j)
    (j : Nat) (q : Piece) (hq : b.Board[j]? = some q) (hpos : q.Position = m.End)
    (hcol : q.Color = imul b.Turn (-1)) (hopp : q.Color ≠ b.Turn) :
    (∃ q1, b1.Board[j]? = some q1 ∧ q1.Position = { X := 0, Y := 0 }) ∧
      (∃ p1, b1.Board[(locate m b.Turn b.Board 0 {}).pieceindex]? = some p1 ∧
        p1.Position = m.End) := by
  have hinv := locate_spec m b
  obtain ⟨move, mover, hf, hmem, hgo, hmover, hmv, _, hall⟩ := Move_success_shape hd h
  have hjl := lt_length_of_getElem? hq
  have hqn : ¬ isMover m b.Turn q := fun hm => hopp hm.2.2.symm
  have hqt : isTarget m b.Turn q := ⟨hpos.symm, hcol⟩
  have hcap : (locate m b.Turn b.Board 0 {}).capture = true := by
    cases hc : (locate m b.Turn b.Board 0 {}).capture
    · exact absurd ((hinv.nocap hc).2 j hjl q hq hqt) hqn
    · rfl
  have he : ¬ enPassantBranch m (locate m b.Turn b.Board 0 {}) = true := by
    intro he
    rw [enPassantBranch_capture he] at hcap
    cases hcap
  obtain ⟨qc, hqc, hqct, hqcn⟩ := hinv.cap hcap
  have hv : victimIndex m (locate m b.Turn b.Board 0 {})
      (b.Board.modify (fun p => { p with Position := move.End })
        (locate m b.Turn b.Board 0 {}).pieceindex) =
      (locate m b.Turn b.Board 0 {}).capturedpiece := by
    unfold victimIndex
    rw [if_neg he]
  have hjp : j ≠ (locate m b.Turn b.Board 0 {}).pieceindex := by
    intro e
    rw [e, hmover] at hq
    cases hq
    exact hqn hmv
  have hcp : (locate m b.Turn b.Board 0 {}).pieceindex ≠
      (locate m b.Turn b.Board 0 {}).capturedpiece := by
    intro e
    rw [← e, hmover] at hqc
    cases hqc
    exact hqcn hmv
  constructor
  · refine ⟨_, by rw [hall, hq]; rfl, ?_⟩
    rw [hv]
    simp only [pieceAfter, hcap, Bool.true_or, true_and, if_neg hjp]
    by_cases hjc : j = (locate m b.Turn b.Board 0 {}).capturedpiece
    · rw [if_pos hjc]
    · rw [if_neg hjc]
      by_contra hne
      exact hjc (huniq j _ q qc hq hqc (by rw [hpos, hqct.1]) hne)
  · refine ⟨_, by rw [hall, hmover]; rfl, ?_⟩
    rw [hv]
    simp only [pieceAfter, hcap, Bool.true_or, true_and, if_neg hcp, if_true]
    exact (goEq_fields hgo).2.2

theorem Move_captures_on_destination_witness :
    (∃ q1, rookBoardAfter.Board[1]? = some q1 ∧ q1.Position = { X := 0, Y := 0 }) ∧
      (∃ p1, rookBoardAfter.Board[0]? = some p1 ∧ p1.Position = (moveOf "r" 1 1 2 1).End) :=
  Move_captures_on_destination rookEnv rookBoard rookBoardAfter (moveOf "r" 1 1 2 1)
    (by decide) (by decide)
    (by
      intro i j p q hp hq hpq hne
      have hi := lt_length_of_getElem? hp
      have hj := lt_length_of_getElem? hq
      simp only [rookBoard, List.length_cons, List.length_nil] at hi hj
      interval_cases i <;> interval_cases j <;>
        first
        | rfl
        | (simp only [rookBoard, List.getElem?_cons_zero, List.getElem?_cons_succ,
            Option.some.injEq] at hp hq
           subst hp hq
           simp [pieceAt] at hpq))
    1 (pieceAt "n" (-1) 2 1) (by decide) (by decide) (by decide) (by decide)

/-- C8. En-passant capture.  After a nil return of `Move` for a pawn move that
changes file by one with no piece of colour `Turn * -1` on `m.End`, the slot
sent to the sentinel is the first slot that stood on `(m.End.X, m.Begin.Y)`, a
square other than `m.End`; every other slot keeps its square, except the mover,
which stands on `m.End`.  That such a slot exists is the pawn rule the
specification gives for the absent `legalMoves`. -/
theorem Move_en_passant_victim (env : Env) (b b1 : Board) (m : Move)
    (h : b.Move env m = .returned b1 none) (hp : m.Piece = "p")
    (hfile : isub m.Begin.X m.End.X = 1 ∨ isub m.End.X m.Begin.X = 1)
    (hno : ∀ q ∈ b.Board, ¬ (q.Position = m.End ∧ q.Color = imul b.Turn (-1)))
    (hrule : PawnStepRule env b (locate m b.Turn b.Board 0 {}).pieceindex) :
    ∃ (v : Nat) (q : Piece), v ≠ (locate m b.Turn b.Board 0 {}).pieceindex ∧
      b.Board[v]? = some q ∧ q.Position = { X := m.End.X, Y := m.Begin.Y } ∧
      q.Position ≠ m.End ∧
      (∀ k < v, ∀ r, b.Board[k]? = some r → r.Position ≠ { X := m.End.X, Y := m.Begin.Y }) ∧
      (∃ q1, b1.Board[v]? = some q1 ∧ q1.Position = { X := 0, Y := 0 }) ∧
      (∀ (j : Nat) (r : Piece), j ≠ v → b.Board[j]? = some r →
        ∃ r1, b1.Board[j]? = some r1 ∧
          r1.Position =
            if j = (locate m b.Turn b.Board 0 {}).pieceindex then m.End else r.Position) := by
  have hd : isCastleDispatch m = false := by
    unfold isCastleDispatch
    rw [hp]
    rfl
  have hinv := locate_spec m b
  obtain ⟨move, mover, hf, hmem, hgo, hmover, hmv, _, hall⟩ := Move_success_shape hd h
  obtain ⟨hmp, hmb, hme⟩ := goEq_fields hgo
  have hcap : (locate m b.Turn b.Board 0 {}).capture = false := by
    cases hc : (locate m b.Turn b.Board 0 {}).capture
    · rfl
    · obtain ⟨qc, hqc, hqct, _⟩ := hinv.cap hc
      exact absurd ⟨hqct.1.symm, hqct.2⟩ (hno qc (mem_of_getElem? hqc))
  have he : enPassantBranch m (locate m b.Turn b.Board 0 {}) = true := by
    unfold enPassantBranch
    rw [hcap, hp]
    rcases hfile with h1 | h1
    · simp [h1]
    · simp [h1]
  have hy : m.End.Y ≠ m.Begin.Y := by
    have := (hrule mover hmover move hmem (by rw [hmp, hp])
      (by rw [hmb, hme]; exact hfile)).1
    rwa [hmb, hme] at this
  obtain ⟨hvne, q, hq, hqpos, hfirst⟩ := enPassant_victim hinv hf hmem hgo hrule he
  refine ⟨_, q, hvne, hq, hqpos, ?_, hfirst, ⟨_, by rw [hall, hq]; rfl, ?_⟩, ?_⟩
  · intro e
    rw [hqpos] at e
    exact hy (by rw [← e])
  · simp [pieceAfter, he]
  · intro j r hj hr
    refine ⟨_, by rw [hall, hr]; rfl, ?_⟩
    simp only [pieceAfter, if_neg (fun hc : _ ∧ _ => hj hc.2)]
    rw [hme]

theorem Move_en_passant_victim_witness :
    ∃ (v : Nat) (q : Piece), v ≠ 1 ∧
      passantBoard.Board[v]? = some q ∧ q.Position = { X := 2, Y := 5 } ∧
      q.Position ≠ (moveOf "p" 3 5 2 6).End ∧
      (∀ k < v, ∀ r, passantBoard.Board[k]? = some r → r.Position ≠ { X := 2, Y := 5 }) ∧
      (∃ q1, passantBoardAfter.Board[v]? = some q1 ∧ q1.Position = { X := 0, Y := 0 }) ∧
      (∀ (j : Nat) (r : Piece), j ≠ v → passantBoard.Board[j]? = some r →
        ∃ r1, passantBoardAfter.Board[j]? = some r1 ∧
          r1.Position = if j = 1 then (moveOf "p" 3 5 2 6).End else r.Position) :=
  Move_en_passant_victim passantEnv passantBoard passantBoardAfter (moveOf "p" 3 5 2 6)
    (by decide) (by decide) (by decide) (by decide) (by unfold PawnStepRule; decide)

/-- C2. The castling path on `strayBoard`, black to move, for the king move
e8-g8 while no black king stands on e8: the move is handed to `castleHandler`,
which takes slot 0 (the white king on e1) for the king.  Whenever black is not
in check before, the squares f1 and g1 are free and black is in check with
slot 0 on g8, `Move` returns an error and leaves slot 0 on e8: the board is
not the one it was given. -/
theorem castle_error_moves_slot_zero (env : Env)
    (h1 : env.isCheck strayBoard (-1) = false)
    (h2 : env.occupied strayBoard { X := 6, Y := 1 } = 0)
    (h3 : env.occupied strayBoard { X := 7, Y := 1 } = 0)
    (h4 : env.isCheck strayBoardTentative (-1) = true) :
    isCastleDispatch (moveOf "k" 5 8 7 8) = true ∧
      (∀ p ∈ strayBoard.Board, ¬ (p.Position = (moveOf "k" 5 8 7 8).Begin ∧
        p.Name = (moveOf "k" 5 8 7 8).Piece ∧ p.Color = strayBoard.Turn)) ∧
      strayBoard.Move env (moveOf "k" 5 8 7 8) =
        .returned strayBoardAfter (some "func castleHandler: castle places user in check") ∧
      strayBoardAfter ≠ strayBoard := by
  refine ⟨by decide, by decide, ?_, by decide⟩
  have hscan : castleScan (moveOf "k" 5 8 7 8) (-1) strayBoard.Board 0 {} =
      { kingindex := 0, rookindex := 2, rookfound := true } := by decide
  have hpath : pathBlocked env strayBoard (minInt 8 5) (maxInt 8 5) 1 = false := by
    unfold pathBlocked
    rw [show (maxInt 8 5 - iadd (minInt 8 5) 1).toNat = 2 from by decide,
      show iadd (minInt 8 5) 1 = 6 from by decide]
    simp [List.range_succ, h2, h3]
  have hc : strayBoard.castleHandler env (moveOf "k" 5 8 7 8) =
      .returned strayBoardAfter (some "func castleHandler: castle places user in check") := by
    unfold Board.castleHandler
    rw [show strayBoard.Turn = -1 from rfl, h1, hscan]
    simp only [Bool.false_eq_true, if_false]
    rw [show strayBoard.Board[0]? = some { pieceAt "k" 1 5 1 with Can_castle := true } from rfl,
      show strayBoard.Board[2]? = some { pieceAt "r" (-1) 8 8 with Can_castle := true } from rfl]
    simp only [Bool.not_true, Bool.false_eq_true, if_false]
    rw [show ({ pieceAt "r" (-1) 8 8 with Can_castle := true } : Piece).Position.X = 8 from rfl,
      show ({ pieceAt "k" 1 5 1 with Can_castle := true } : Piece).Position.X = 5 from rfl,
      show ({ pieceAt "k" 1 5 1 with Can_castle := true } : Piece).Position.Y = 1 from rfl,
      hpath]
    simp only [Bool.false_eq_true, if_false]
    unfold castlePlace
    rw [show setAt strayBoard.Board 0 (fun p => { p with Position := (moveOf "k" 5 8 7 8).End })
        = some strayBoardTentative.Board from by decide]
    simp only
    rw [show ({ strayBoard with Board := strayBoardTentative.Board } : Board) =
        strayBoardTentative from rfl, show strayBoard.Turn = -1 from rfl, h4]
    simp only [if_true]
    rw [show setAt strayBoardTentative.Board 0
        (fun p => { p with Position := (moveOf "k" 5 8 7 8).Begin })
        = some strayBoardAfter.Board from by decide]
    rfl
  unfold Board.Move
  rw [show isCastleDispatch (moveOf "k" 5 8 7 8) = true from by decide, hc]
  rfl

theorem castle_error_moves_slot_zero_witness :
    isCastleDispatch (moveOf "k" 5 8 7 8) = true ∧
      (∀ p ∈ strayBoard.Board, ¬ (p.Position = (moveOf "k" 5 8 7 8).Begin ∧
        p.Name = (moveOf "k" 5 8 7 8).Piece ∧ p.Color = strayBoard.Turn)) ∧
      strayBoard.Move strayEnv (moveOf "k" 5 8 7 8) =
        .returned strayBoardAfter (some "func castleHandler: castle places user in check") ∧
      strayBoardAfter ≠ strayBoard :=
  castle_error_moves_slot_zero strayEnv (by decide) (by decide) (by decide) (by decide)

theorem castleStep_rookfound {m : Move} {turn : Int} {i : Nat} {p : Piece} {s : Castling}
    (h : (castleStep m turn i p s).rookfound = true) :
    s.rookfound = true ∨ m.End.X = 7 ∨ m.End.X = 3 := by
  unfold castleStep at h
  split at h
  · exact Or.inl h
  · split at h
    · rename_i hr
      rcases hr.2 with h7 | h3
      · exact Or.inr (Or.inl h7.1)
      · exact Or.inr (Or.inr h3.1)
    · exact Or.inl h

theorem castleScan_rookfound {m : Move} {turn : Int} :
    ∀ (ps : List Piece) (i : Nat) (s : Castling),
      (castleScan m turn ps i s).rookfound = true →
      s.rookfound = true ∨ m.End.X = 7 ∨ m.End.X = 3
  | [], _, s, h => Or.inl (by simpa [castleScan] using h)
  | p :: ps, i, s, h => by
    unfold castleScan at h
    simp only at h
    split at h
    · exact castleStep_rookfound h
    · rcases castleScan_rookfound ps (i + 1) _ h with h1 | h1
      · exact castleStep_rookfound h1
      · exact Or.inr h1

theorem castlePlace_error_or_ok {env : Env} {b b1 : Board} {m : Move} {s : Castling}
    {e : Option String} (h : castlePlace env b m s = .returned b1 e) :
    e = none ∨ e = some "func castleHandler: castle places user in check" := by
  unfold castlePlace at h
  split at h
  · cases h
  · split at h
    · split at h
      · cases h
      · cases h; exact Or.inr rfl
    · split at h
      · cases h
      · split at h
        · cases h
        · cases h; exact Or.inl rfl

/-- A nil return of `castleHandler` passed the test of line 134: a rook was found. -/
theorem castleHandler_nil_rookfound {env : Env} {b b1 : Board} {m : Move}
    (h : b.castleHandler env m = .returned b1 none) :
    (castleScan m b.Turn b.Board 0 {}).rookfound = true := by
  unfold Board.castleHandler at h
  split at h
  · cases h
  · simp only at h
    split at h
    · cases h
    · split at h
      · cases h
      · split at h
        · cases h
        · rename_i hr
          simpa using hr

/-- C5. The test of line 34 hands every king move whose file does not change
by exactly one to `castleHandler`, a one-square vertical step included; such a
step, unless it ends on file 3 or 7, never returns nil, whatever `legalMoves`
holds. -/
theorem Move_vertical_king_refused (env : Env) (b : Board) (m : Move)
    (hk : m.Piece = "k") (hx : m.End.X = m.Begin.X) (h7 : m.End.X ≠ 7) (h3 : m.End.X ≠ 3) :
    isCastleDispatch m = true ∧ ∀ b1, b.Move env m ≠ .returned b1 none := by
  have hd : isCastleDispatch m = true := by
    unfold isCastleDispatch
    rw [hk, hx, isub_self]
    rfl
  refine ⟨hd, fun b1 h => ?_⟩
  unfold Board.Move at h
  rw [hd] at h
  simp only [if_true] at h
  cases hc : b.castleHandler env m with
  | panicked => rw [hc] at h; cases h
  | returned b2 e2 =>
    rw [hc] at h
    cases e2 with
    | some msg => cases h
    | none =>
      rcases castleScan_rookfound _ _ _ (castleHandler_nil_rookfound hc) with h0 | h0 | h0
      · cases h0
      · exact h7 h0
      · exact h3 h0

theorem Move_vertical_king_refused_witness :
    moveOf "k" 5 1 5 2 ∈ kingEnv.legalMoves kingBoard 0 true ∧
      kingBoard.Move kingEnv (moveOf "k" 5 1 5 2) =
        .returned kingBoard (some "func castleHandler: king has already moved") ∧
      isCastleDispatch (moveOf "k" 5 1 5 2) = true ∧
      ∀ b1, kingBoard.Move kingEnv (moveOf "k" 5 1 5 2) ≠ .returned b1 none :=
  ⟨by decide, by decide,
    Move_vertical_king_refused kingEnv kingBoard (moveOf "k" 5 1 5 2) (by decide) (by decide)
      (by decide) (by decide)⟩

/-- C9. `Move` has no promotion step: after a nil return for a pawn move,
the farthest rank included, every slot has the name it had, and the located
mover is still named "p". -/
theorem Move_pawn_stays_pawn (env : Env) (b b1 : Board) (m : Move) (hp : m.Piece = "p")
    (h : b.Move env m = .returned b1 none) :
    (∀ j : Nat, (b1.Board[j]?).map Piece.Name = (b.Board[j]?).map Piece.Name) ∧
      ∃ p1, b1.Board[(locate m b.Turn b.Board 0 {}).pieceindex]? = some p1 ∧
        p1.Name = "p" := by
  have hd : isCastleDispatch m = false := by
    unfold isCastleDispatch
    rw [hp]
    rfl
  obtain ⟨move, mover, _, _, _, hmover, hmv, _, hall⟩ := Move_success_shape hd h
  constructor
  · intro j
    rw [hall j]
    cases b.Board[j]? with
    | none => rfl
    | some p => rfl
  · refine ⟨_, by rw [hall, hmover]; rfl, ?_⟩
    simp only [pieceAfter]
    rw [← hmv.2.1, hp]

theorem Move_pawn_stays_pawn_witness :
    promotionBoard.Move promotionEnv (moveOf "p" 1 7 1 8) = .returned promotionBoardAfter none ∧
      (∀ j : Nat, (promotionBoardAfter.Board[j]?).map Piece.Name =
        (promotionBoard.Board[j]?).map Piece.Name) ∧
      ∃ p1, promotionBoardAfter.Board[0]? = some p1 ∧ p1.Name = "p" :=
  ⟨by decide,
    Move_pawn_stays_pawn promotionEnv promotionBoard promotionBoardAfter (moveOf "p" 1 7 1 8)
      (by decide) (by decide)⟩

/-- C10. The castling path on `cornerBoard`, white to move, for the king move
e1-g1 while no white king stands on e1: slot 0, the rook on h1, is taken for
the king and for the rook.  Whenever white is in check neither before nor with
slot 0 on g1, `Move` returns nil, the rook stands on f1 and no piece stands on
`m.End`. -/
theorem castle_without_king_succeeds (env : Env)
    (h1 : env.isCheck cornerBoard 1 = false)
    (h2 : env.isCheck cornerBoardTentative 1 = false) :
    isCastleDispatch (moveOf "k" 5 1 7 1) = true ∧
      (∀ p ∈ cornerBoard.Board, ¬ (p.Position = (moveOf "k" 5 1 7 1).Begin ∧
        p.Name = (moveOf "k" 5 1 7 1).Piece ∧ p.Color = cornerBoard.Turn)) ∧
      cornerBoard.Move env (moveOf "k" 5 1 7 1) = .returned cornerBoardAfter none ∧
      ∀ p ∈ cornerBoardAfter.Board, p.Position ≠ (moveOf "k" 5 1 7 1).End := by
  refine ⟨by decide, by decide, ?_, by decide⟩
  have hscan : castleScan (moveOf "k" 5 1 7 1) 1 cornerBoard.Board 0 {} =
      { kingindex := 0, rookindex := 0, rookfound := true } := by decide
  have hpath : pathBlocked env cornerBoard (minInt 8 8) (maxInt 8 8) 1 = false := by
    unfold pathBlocked
    rw [show (maxInt 8 8 - iadd (minInt 8 8) 1).toNat = 0 from by decide]
    rfl
  have hc : cornerBoard.castleHandler env (moveOf "k" 5 1 7 1) =
      .returned { cornerBoardAfter with Turn := 1, Lastmove := cornerBoard.Lastmove }
        none := by
    unfold Board.castleHandler
    rw [show cornerBoard.Turn = 1 from rfl, h1, hscan]
    simp only [Bool.false_eq_true, if_false]
    rw [show cornerBoard.Board[0]? = some { pieceAt "r" 1 8 1 with Can_castle := true } from rfl]
    simp only [Bool.not_true, Bool.false_eq_true, if_false]
    rw [show ({ pieceAt "r" 1 8 1 with Can_castle := true } : Piece).Position.X = 8 from rfl,
      show ({ pieceAt "r" 1 8 1 with Can_castle := true } : Piece).Position.Y = 1 from rfl,
      hpath]
    simp only [Bool.false_eq_true, if_false]
    unfold castlePlace
    rw [show setAt cornerBoard.Board 0 (fun p => { p with Position := (moveOf "k" 5 1 7 1).End })
        = some cornerBoardTentative.Board from by decide]
    simp only
    rw [show ({ cornerBoard with Board := cornerBoardTentative.Board } : Board) =
        cornerBoardTentative from rfl, show cornerBoard.Turn = 1 from rfl, h2]
    decide
  unfold Board.Move
  rw [show isCastleDispatch (moveOf "k" 5 1 7 1) = true from by decide, hc]
  rfl

theorem castle_without_king_succeeds_witness :
    isCastleDispatch (moveOf "k" 5 1 7 1) = true ∧
      (∀ p ∈ cornerBoard.Board, ¬ (p.Position = (moveOf "k" 5 1 7 1).Begin ∧
        p.Name = (moveOf "k" 5 1 7 1).Piece ∧ p.Color = cornerBoard.Turn)) ∧
      cornerBoard.Move quietEnv (moveOf "k" 5 1 7 1) = .returned cornerBoardAfter none ∧
      ∀ p ∈ cornerBoardAfter.Board, p.Position ≠ (moveOf "k" 5 1 7 1).End :=
  castle_without_king_succeeds quietEnv (by decide) (by decide)

theorem castleStep_inv (m : Move) (turn : Int) (all : List Piece) (i : Nat) (p : Piece)
    (s : Castling) (hp : all[i]? = some p) (h : CastleInv m turn all i s) :
    CastleInv m turn all (i + 1) (castleStep m turn i p s) := by
  unfold castleStep
  by_cases h1 : m.Begin = p.Position ∧ m.Piece = p.Name ∧ turn = p.Color
  · rw [if_pos h1]
    refine ⟨fun _ => ⟨p, hp, h1⟩, fun h0 k hk hk0 q hq => ?_, h.rook, fun hr => ?_⟩
    · simp only at h0
      omega
    · obtain ⟨h0, hall⟩ := h.norook hr
      refine ⟨h0, fun k hk q hq hnm => ?_⟩
      rcases Nat.lt_succ_iff_lt_or_eq.mp hk with hlt | heq
      · exact hall k hlt q hq hnm
      · subst heq; rw [hp] at hq; cases hq; exact absurd h1 hnm
  · rw [if_neg h1]
    have hnoking : ∀ s1 : Castling, s1.kingindex = s.kingindex → s1.kingindex = 0 →
        ∀ k < i + 1, 0 < k → ∀ q, all[k]? = some q → ¬ isMover m turn q := by
      intro s1 he h0 k hk hk0 q hq
      rcases Nat.lt_succ_iff_lt_or_eq.mp hk with hlt | heq
      · exact h.noking (he ▸ h0) k hlt hk0 q hq
      · subst heq; rw [hp] at hq; cases hq; exact h1
    have hnorook : ¬ isCornerRook m turn p → s.rookfound = false →
        s.rookindex = 0 ∧ ∀ k < i + 1, ∀ q, all[k]? = some q → ¬ isMover m turn q →
          ¬ isCornerRook m turn q := by
      intro hnr hr
      obtain ⟨h0, hall⟩ := h.norook hr
      refine ⟨h0, fun k hk q hq hnm => ?_⟩
      rcases Nat.lt_succ_iff_lt_or_eq.mp hk with hlt | heq
      · exact hall k hlt q hq hnm
      · subst heq; rw [hp] at hq; cases hq; exact hnr
    by_cases h2 : p.Name = "r" ∧
        ((m.End.X = 7 ∧ p.Position.X = 8) ∨ (m.End.X = 3 ∧ p.Position.X = 1))
    · rw [if_pos h2]
      by_cases h3 : turn = 1 ∧ p.Position.Y = 1
      · rw [if_pos h3]
        exact ⟨h.king, hnoking _ rfl, fun _ => ⟨p, hp, h1, h2, Or.inl h3⟩,
          fun hr => by simp at hr⟩
      · rw [if_neg h3]
        by_cases h4 : turn = -1 ∧ p.Position.Y = 8
        · rw [if_pos h4]
          exact ⟨h.king, hnoking _ rfl, fun _ => ⟨p, hp, h1, h2, Or.inr h4⟩,
            fun hr => by simp at hr⟩
        · rw [if_neg h4]
          refine ⟨h.king, hnoking _ rfl, h.rook, hnorook ?_⟩
          rintro ⟨_, h5 | h5⟩
          · exact h3 h5
          · exact h4 h5
    · rw [if_neg h2]
      exact ⟨h.king, hnoking _ rfl, h.rook, hnorook (fun hc => h2 hc.1)⟩

theorem castleInv_of_break {m : Move} {turn : Int} {all : List Piece} {n k : Nat} {s : Castling}
    (h : CastleInv m turn all n s) (hr : s.rookfound = true) (hk : 0 < s.kingindex) :
    CastleInv m turn all k s :=
  ⟨h.king, fun h0 => by omega, h.rook, fun hf => by simp [hr] at hf⟩

theorem castleScan_inv (m : Move) (turn : Int) (all : List Piece) :
    ∀ (ps : List Piece) (i : Nat) (s : Castling),
      (∀ k, ps[k]? = all[i + k]?) → CastleInv m turn all i s →
      CastleInv m turn all (i + ps.length) (castleScan m turn ps i s)
  | [], i, s, _, h => by simpa [castleScan] using h
  | p :: ps, i, s, hps, h => by
    have hp : all[i]? = some p := by simpa using (hps 0).symm
    have h1 := castleStep_inv m turn all i p s hp h
    unfold castleScan
    by_cases hb : ((castleStep m turn i p s).rookfound &&
        decide ((castleStep m turn i p s).kingindex > 0)) = true
    · simp only [hb, if_true]
      simp only [Bool.and_eq_true, decide_eq_true_eq] at hb
      exact castleInv_of_break h1 hb.1 hb.2
    · simp only [hb, if_false]
      have := castleScan_inv m turn all ps (i + 1) (castleStep m turn i p s)
        (fun k => by simpa [Nat.add_assoc, Nat.add_comm 1 k] using hps (k + 1)) h1
      simpa [Nat.add_assoc, Nat.add_comm 1] using this

/-- The locals of `castleHandler` after its loop describe the whole slice. -/
theorem castleScan_spec (m : Move) (b : Board) :
    CastleInv m b.Turn b.Board b.Board.length (castleScan m b.Turn b.Board 0 {}) := by
  have h0 : CastleInv m b.Turn b.Board 0 ({} : Castling) :=
    ⟨fun h => by simp at h, fun _ k hk => by omega, fun h => by simp at h,
      fun _ => ⟨rfl, fun k hk => by omega⟩⟩
  simpa using castleScan_inv m b.Turn b.Board b.Board 0 {} (fun k => by simp) h0

/-- When some slot passes the test of line 116, `kingindex` is such a slot. -/
theorem castleScan_king (m : Move) (b : Board)
    (hex : ∃ p ∈ b.Board, p.Position = m.Begin ∧ p.Name = m.Piece ∧ p.Color = b.Turn) :
    ∃ p, b.Board[(castleScan m b.Turn b.Board 0 {}).kingindex]? = some p ∧
      isMover m b.Turn p := by
  have hinv := castleScan_spec m b
  by_cases hk : 0 < (castleScan m b.Turn b.Board 0 {}).kingindex
  · exact hinv.king hk
  · have hk0 : (castleScan m b.Turn b.Board 0 {}).kingindex = 0 := by omega
    obtain ⟨p, hp, h1, h2, h3⟩ := hex
    obtain ⟨k, hkl, hkp⟩ := List.getElem_of_mem hp
    have hget : b.Board[k]? = some p := by rw [List.getElem?_eq_getElem hkl, hkp]
    have hmv : isMover m b.Turn p := ⟨h1.symm, h2.symm, h3.symm⟩
    by_cases hz : k = 0
    · subst hz
      exact ⟨p, by rw [hk0]; exact hget, hmv⟩
    · exact absurd hmv (hinv.noking hk0 k hkl (by omega) p hget)

/-- The two ways lines 149-160 end when they return. -/
theorem castlePlace_cases {env : Env} {b b1 : Board} {m : Move} {s : Castling}
    {e : Option String} (h : castlePlace env b m s = .returned b1 e) :
    (env.isCheck { b with Board := (b.Board.modify (fun p => { p with Position := m.End })
          s.kingindex) } b.Turn = true ∧
        e = some "func castleHandler: castle places user in check" ∧
        b1 = { b with Board := ((b.Board.modify (fun p => { p with Position := m.End })
          s.kingindex).modify (fun p => { p with Position := m.Begin }) s.kingindex) }) ∨
      (env.isCheck { b with Board := (b.Board.modify (fun p => { p with Position := m.End })
          s.kingindex) } b.Turn = false ∧
        e = none ∧ s.kingindex < b.Board.length ∧
        ((m.End.X = 7 ∧ s.rookindex < b.Board.length ∧
            b1 = { b with Board := ((b.Board.modify (fun p => { p with Position := m.End })
              s.kingindex).modify
                (fun p => { p with Position := { p.Position with X := 6 } }) s.rookindex) }) ∨
          (m.End.X = 3 ∧ s.rookindex < b.Board.length ∧
            b1 = { b with Board := ((b.Board.modify (fun p => { p with Position := m.End })
              s.kingindex).modify
                (fun p => { p with Position := { p.Position with X := 4 } }) s.rookindex) }) ∨
          (m.End.X ≠ 7 ∧ m.End.X ≠ 3 ∧
            b1 = { b with Board := (b.Board.modify (fun p => { p with Position := m.End })
              s.kingindex) }))) := by
  unfold castlePlace at h
  cases h1 : setAt b.Board s.kingindex (fun p => { p with Position := m.End }) with
  | none => rw [h1] at h; cases h
  | some ps1 =>
    rw [h1] at h
    obtain ⟨hk, rfl⟩ := setAt_eq_some.mp h1
    simp only at h
    by_cases hc : env.isCheck { b with Board := (b.Board.modify
        (fun p => { p with Position := m.End }) s.kingindex) } b.Turn = true
    · rw [if_pos hc] at h
      left
      cases h2 : setAt (b.Board.modify (fun p => { p with Position := m.End }) s.kingindex)
          s.kingindex (fun p => { p with Position := m.Begin }) with
      | none => rw [h2] at h; cases h
      | some ps2 =>
        rw [h2] at h
        obtain ⟨_, rfl⟩ := setAt_eq_some.mp h2
        cases h
        exact ⟨hc, rfl, rfl⟩
    · rw [if_neg hc] at h
      right
      simp only [Bool.not_eq_true] at hc
      by_cases h7 : m.End.X = 7
      · have h3 : ¬ m.End.X = 3 := by rw [h7]; decide
        rw [if_pos h7] at h
        cases h2 : setAt (b.Board.modify (fun p => { p with Position := m.End }) s.kingindex)
            s.rookindex (fun p => { p with Position := { p.Position with X := 6 } }) with
        | none => rw [h2] at h; cases h
        | some ps2 =>
          rw [h2] at h
          obtain ⟨hr, rfl⟩ := setAt_eq_some.mp h2
          simp only [if_neg h3] at h
          cases h
          exact ⟨hc, rfl, hk, Or.inl ⟨h7, by simpa using hr, rfl⟩⟩
      · rw [if_neg h7] at h
        simp only at h
        by_cases h3 : m.End.X = 3
        · rw [if_pos h3] at h
          cases h2 : setAt (b.Board.modify (fun p => { p with Position := m.End })
              s.kingindex) s.rookindex
              (fun p => { p with Position := { p.Position with X := 4 } }) with
          | none => rw [h2] at h; cases h
          | some ps2 =>
            rw [h2] at h
            obtain ⟨hr, rfl⟩ := setAt_eq_some.mp h2
            cases h
            exact ⟨hc, rfl, hk, Or.inr (Or.inl ⟨h3, by simpa using hr, rfl⟩)⟩
        · rw [if_neg h3] at h
          cases h
          exact ⟨hc, rfl, hk, Or.inr (Or.inr ⟨h7, h3, rfl⟩)⟩

/-- A return of `castleHandler` either leaves the board as it was, with an
error, or comes from lines 149-160, reached with the king's and the rook's slot
inside the slice, both castling rights set and a rook found. -/
theorem castleHandler_cases {env : Env} {b b1 : Board} {m : Move} {e : Option String}
    (h : b.castleHandler env m = .returned b1 e) :
    (b1 = b ∧ e ≠ none) ∨
      (∃ king rook,
        b.Board[(castleScan m b.Turn b.Board 0 {}).kingindex]? = some king ∧
        b.Board[(castleScan m b.Turn b.Board 0 {}).rookindex]? = some rook ∧
        env.isCheck b b.Turn = false ∧
        king.Can_castle = true ∧ rook.Can_castle = true ∧
        (castleScan m b.Turn b.Board 0 {}).rookfound = true ∧
        pathBlocked env b (minInt rook.Position.X king.Position.X)
          (maxInt rook.Position.X king.Position.X) king.Position.Y = false ∧
        castlePlace env b m (castleScan m b.Turn b.Board 0 {}) = .returned b1 e) := by
  unfold Board.castleHandler at h
  by_cases hc : env.isCheck b b.Turn = true
  · rw [if_pos hc] at h
    cases h
    exact Or.inl ⟨rfl, by simp⟩
  · rw [if_neg hc] at h
    simp only [Bool.not_eq_true] at hc
    simp only at h
    cases hk : b.Board[(castleScan m b.Turn b.Board 0 {}).kingindex]? with
    | none => rw [hk] at h; cases h
    | some king =>
      rw [hk] at h
      simp only at h
      cases hkc : king.Can_castle
      · rw [hkc] at h
        simp only [Bool.not_false, if_true] at h
        cases h
        exact Or.inl ⟨rfl, by simp⟩
      · rw [hkc] at h
        simp only [Bool.not_true, Bool.false_eq_true, if_false] at h
        cases hrf : (castleScan m b.Turn b.Board 0 {}).rookfound
        · rw [hrf] at h
          simp only [Bool.not_false, if_true] at h
          cases h
          exact Or.inl ⟨rfl, by simp⟩
        · rw [hrf] at h
          simp only [Bool.not_true, Bool.false_eq_true, if_false] at h
          cases hr : b.Board[(castleScan m b.Turn b.Board 0 {}).rookindex]? with
          | none => rw [hr] at h; cases h
          | some rook =>
            rw [hr] at h
            simp only at h
            cases hrc : rook.Can_castle
            · rw [hrc] at h
              simp only [Bool.not_false, if_true] at h
              cases h
              exact Or.inl ⟨rfl, by simp⟩
            · rw [hrc] at h
              simp only [Bool.not_true, Bool.false_eq_true, if_false] at h
              cases hpb : pathBlocked env b (minInt rook.Position.X king.Position.X)
                  (maxInt rook.Position.X king.Position.X) king.Position.Y
              · rw [hpb] at h
                simp only [Bool.false_eq_true, if_false] at h
                exact Or.inr ⟨king, rook, rfl, rfl, hc, hkc, hrc, rfl, hpb, h⟩
              · rw [hpb] at h
                simp only [if_true] at h
                cases h
                exact Or.inl ⟨rfl, by simp⟩

theorem modify_position_restore (ps : List Piece) (k : Nat) (p : Piece) (a : Square)
    (hp : ps[k]? = some p) :
    (ps.modify (fun q => { q with Position := a }) k).modify
      (fun q => { q with Position := p.Position }) k = ps := by
  apply List.ext_getElem?
  intro j
  rw [List.getElem?_modify, List.getElem?_modify]
  by_cases hkj : k = j
  · subst hkj
    rw [hp]
    simp
  · cases ps[j]? with
    | none => rfl
    | some q => simp [hkj]

/-- The castling path keeps the promise of the doc comment of `Move` when a
king of the side to move stands on `m.Begin`: an error then leaves the board
as it was. -/
theorem Move_castle_error_with_king (env : Env) (b b1 : Board) (m : Move) (e : String)
    (hd : isCastleDispatch m = true)
    (hex : ∃ p ∈ b.Board, p.Position = m.Begin ∧ p.Name = m.Piece ∧ p.Color = b.Turn)
    (h : b.Move env m = .returned b1 (some e)) : b1 = b := by
  unfold Board.Move at h
  rw [hd] at h
  simp only [if_true] at h
  cases hc : b.castleHandler env m with
  | panicked => rw [hc] at h; cases h
  | returned b2 e2 =>
    rw [hc] at h
    cases e2 with
    | none => cases h
    | some msg =>
      cases h
      rcases castleHandler_cases hc with ⟨hb, _⟩ | ⟨king, rook, hk, _, _, _, _, _, _, hp⟩
      · exact hb
      · rcases castlePlace_cases hp with ⟨_, _, hb⟩ | ⟨_, he, _⟩
        · obtain ⟨p, hp1, hmv⟩ := castleScan_king m b hex
          rw [hb, hmv.1, modify_position_restore b.Board _ p m.End hp1]
        · cases he

theorem Move_castle_error_with_king_witness :
    kingBoard.Move kingEnv (moveOf "k" 5 1 5 2) =
        .returned kingBoard (some "func castleHandler: king has already moved") ∧
      kingBoard = kingBoard :=
  ⟨by decide,
    Move_castle_error_with_king kingEnv kingBoard kingBoard (moveOf "k" 5 1 5 2)
      "func castleHandler: king has already moved" (by decide) (by decide) (by decide)⟩

/-- The castling path with a king of the side to move located on `m.Begin`:
after a nil return the king's slot stands on `m.End`, and the rook's slot, a
different one, went from file 8 to file 6 (destination file 7) or from file 1
to file 4 (destination file 3) on its own rank. -/
theorem Move_castle_success_with_king (env : Env) (b b1 : Board) (m : Move)
    (hd : isCastleDispatch m = true)
    (hex : ∃ p ∈ b.Board, p.Position = m.Begin ∧ p.Name = m.Piece ∧ p.Color = b.Turn)
    (h : b.Move env m = .returned b1 none) :
    ∃ king rook,
      b.Board[(castleScan m b.Turn b.Board 0 {}).kingindex]? = some king ∧
      isMover m b.Turn king ∧
      b.Board[(castleScan m b.Turn b.Board 0 {}).rookindex]? = some rook ∧
      isCornerRook m b.Turn rook ∧
      (castleScan m b.Turn b.Board 0 {}).kingindex ≠
        (castleScan m b.Turn b.Board 0 {}).rookindex ∧
      b1.Board[(castleScan m b.Turn b.Board 0 {}).kingindex]? =
        some { king with Position := m.End } ∧
      ((m.End.X = 7 ∧ rook.Position.X = 8 ∧
          b1.Board[(castleScan m b.Turn b.Board 0 {}).rookindex]? =
            some { rook with Position := { X := 6, Y := rook.Position.Y } }) ∨
        (m.End.X = 3 ∧ rook.Position.X = 1 ∧
          b1.Board[(castleScan m b.Turn b.Board 0 {}).rookindex]? =
            some { rook with Position := { X := 4, Y := rook.Position.Y } })) := by
  unfold Board.Move at h
  rw [hd] at h
  simp only [if_true] at h
  cases hc : b.castleHandler env m with
  | panicked => rw [hc] at h; cases h
  | returned b2 e2 =>
    rw [hc] at h
    cases e2 with
    | some msg => cases h
    | none =>
      cases h
      rcases castleHandler_cases hc with ⟨_, he⟩ | ⟨king, rook, hk, hr, _, _, _, hrf, _, hp⟩
      · exact absurd rfl he
      · obtain ⟨p, hp1, hmv⟩ := castleScan_king m b hex
        rw [hk] at hp1
        cases hp1
        obtain ⟨q, hq, hqn, hqr⟩ := (castleScan_spec m b).rook hrf
        rw [hr] at hq
        cases hq
        have hne : (castleScan m b.Turn b.Board 0 {}).kingindex ≠
            (castleScan m b.Turn b.Board 0 {}).rookindex := by
          intro e
          rw [e, hr] at hk
          cases hk
          exact hqn hmv
        refine ⟨king, rook, hk, hmv, hr, hqr, hne, ?_⟩
        rcases castlePlace_cases hp with ⟨_, he, _⟩ | ⟨_, _, _, hb⟩
        · cases he
        · rcases hb with ⟨h7, _, hb⟩ | ⟨h3, _, hb⟩ | ⟨h7, h3, _⟩
          · have hx : rook.Position.X = 8 := by
              rcases hqr.1.2 with hh | hh
              · exact hh.2
              · rw [h7] at hh; exact absurd hh.1 (by decide)
            subst hb
            constructor
            · simp [List.getElem?_modify, hk, hne, Ne.symm hne]
            · left
              refine ⟨h7, hx, ?_⟩
              simp [List.getElem?_modify, hr, hne, Ne.symm hne]
          · have hx : rook.Position.X = 1 := by
              rcases hqr.1.2 with hh | hh
              · rw [h3] at hh; exact absurd hh.1 (by decide)
              · exact hh.2
            subst hb
            constructor
            · simp [List.getElem?_modify, hk, hne, Ne.symm hne]
            · right
              refine ⟨h3, hx, ?_⟩
              simp [List.getElem?_modify, hr, hne, Ne.symm hne]
          · rcases hqr.1.2 with hh | hh
            · exact absurd hh.1 h7
            · exact absurd hh.1 h3

theorem Move_castle_success_with_king_witness :
    castleBoard.Move quietEnv (moveOf "k" 5 1 7 1) = .returned castleBoardAfter none ∧
      ∃ king rook, castleBoard.Board[0]? = some king ∧ castleBoard.Board[1]? = some rook ∧
        castleBoardAfter.Board[0]? = some { king with Position := (moveOf "k" 5 1 7 1).End } ∧
        castleBoardAfter.Board[1]? =
          some { rook with Position := { X := 6, Y := rook.Position.Y } } := by
  refine ⟨by decide, ?_⟩
  obtain ⟨king, rook, hk, _, hr, _, _, hk1, hr1⟩ :=
    Move_castle_success_with_king quietEnv castleBoard castleBoardAfter (moveOf "k" 5 1 7 1)
      (by decide) (by decide) (by decide)
  refine ⟨king, rook, hk, hr, hk1, ?_⟩
  rcases hr1 with ⟨_, _, h⟩ | ⟨h3, _, _⟩
  · exact h
  · exact absurd h3 (by decide)

theorem castleScan_kingindex_lt (m : Move) (b : Board) (hne : b.Board ≠ []) :
    (castleScan m b.Turn b.Board 0 {}).kingindex < b.Board.length := by
  by_cases hk : 0 < (castleScan m b.Turn b.Board 0 {}).kingindex
  · obtain ⟨p, hp, _⟩ := (castleScan_spec m b).king hk
    exact lt_length_of_getElem? hp
  · have h0 : (castleScan m b.Turn b.Board 0 {}).kingindex = 0 := by omega
    rw [h0]
    exact List.length_pos.mpr hne

theorem castleScan_rookindex_lt (m : Move) (b : Board)
    (hr : (castleScan m b.Turn b.Board 0 {}).rookfound = true) :
    (castleScan m b.Turn b.Board 0 {}).rookindex < b.Board.length := by
  obtain ⟨q, hq, _⟩ := (castleScan_spec m b).rook hr
  exact lt_length_of_getElem? hq

theorem castlePlace_returns (env : Env) (b : Board) (m : Move) (s : Castling)
    (hk : s.kingindex < b.Board.length) (hr : s.rookindex < b.Board.length) :
    ∃ b1 e, castlePlace env b m s = .returned b1 e := by
  unfold castlePlace
  rw [setAt_eq_some.mpr ⟨hk, rfl⟩]
  simp only
  split
  · rw [setAt_eq_some.mpr ⟨by simpa using hk, rfl⟩]
    exact ⟨_, _, rfl⟩
  · by_cases h7 : m.End.X = 7
    · have h3 : ¬ m.End.X = 3 := by rw [h7]; decide
      rw [if_pos h7, setAt_eq_some.mpr ⟨by simpa using hr, rfl⟩]
      simp only [if_neg h3]
      exact ⟨_, _, rfl⟩
    · rw [if_neg h7]
      simp only
      by_cases h3 : m.End.X = 3
      · rw [if_pos h3, setAt_eq_some.mpr ⟨by simpa using hr, rfl⟩]
        exact ⟨_, _, rfl⟩
      · rw [if_neg h3]
        exact ⟨_, _, rfl⟩

/-- `castleHandler` panics exactly on a board without pieces whose side to move
is not reported in check: line 131 then indexes an empty slice. -/
theorem castleHandler_panicked_iff (env : Env) (b : Board) (m : Move) :
    b.castleHandler env m = .panicked ↔ env.isCheck b b.Turn = false ∧ b.Board = [] := by
  constructor
  · intro h
    by_cases hc : env.isCheck b b.Turn = true
    · unfold Board.castleHandler at h
      rw [if_pos hc] at h
      cases h
    · simp only [Bool.not_eq_true] at hc
      refine ⟨hc, ?_⟩
      by_contra hne
      have hk := castleScan_kingindex_lt m b hne
      unfold Board.castleHandler at h
      rw [hc] at h
      simp only [Bool.false_eq_true, if_false] at h
      rw [List.getElem?_eq_getElem hk] at h
      simp only at h
      split at h
      · cases h
      · split at h
        · cases h
        · rename_i hrf
          have hrf1 : (castleScan m b.Turn b.Board 0 {}).rookfound = true := by
            simpa using hrf
          have hr := castleScan_rookindex_lt m b hrf1
          rw [List.getElem?_eq_getElem hr] at h
          simp only at h
          split at h
          · cases h
          · split at h
            · cases h
            · obtain ⟨b1, e, hp⟩ := castlePlace_returns env b m _ hk hr
              rw [hp] at h
              cases h
  · rintro ⟨hc, hb⟩
    unfold Board.castleHandler
    rw [hc, hb]
    rfl

/-- C19. `Move` does not always complete: it panics exactly when the move is
handed to `castleHandler`, the board has no pieces and `isCheck` reports no
check, the index `kingindex = 0` of line 131 being out of range.  On every
other input it returns. -/
theorem Move_panicked_iff (env : Env) (b : Board) (m : Move) :
    b.Move env m = .panicked ↔
      isCastleDispatch m = true ∧ env.isCheck b b.Turn = false ∧ b.Board = [] := by
  cases hd : isCastleDispatch m
  · constructor
    · intro h
      rcases Move_ordinary env b m hd with ⟨_, hr⟩ | ⟨_, _, hr⟩ | ⟨_, _, _, _, _, hr⟩ <;>
        · rw [hr] at h; cases h
    · rintro ⟨h, _⟩
      cases h
  · have hmove : b.Move env m = .panicked ↔ b.castleHandler env m = .panicked := by
      unfold Board.Move
      rw [hd]
      simp only [if_true]
      cases hc : b.castleHandler env m with
      | panicked => simp
      | returned b2 e2 =>
        cases e2 with
        | none => simp
        | some msg => simp
    rw [hmove, castleHandler_panicked_iff]
    simp

theorem Move_panicked_iff_witness :
    emptyBoard.Move quietEnv (moveOf "k" 5 1 7 1) = .panicked :=
  (Move_panicked_iff quietEnv emptyBoard (moveOf "k" 5 1 7 1)).mpr
    ⟨by decide, by decide, rfl⟩

theorem unplaced_modify (ps : List Piece) (k j : Nat) (f : Piece → Piece)
    (hf : ∀ p, (f p).unplaced = p.unplaced) :
    ((ps.modify f k)[j]?).map Piece.unplaced = (ps[j]?).map Piece.unplaced := by
  rw [List.getElem?_modify]
  cases ps[j]? with
  | none => rfl
  | some p =>
    by_cases hkj : k = j
    · simp [hkj, hf]
    · simp [hkj]

/-- `castleHandler` writes positions only, and keeps the number of slots. -/
theorem castleHandler_frame {env : Env} {b b1 : Board} {m : Move} {e : Option String}
    (h : b.castleHandler env m = .returned b1 e) :
    b1.Board.length = b.Board.length ∧
      ∀ j : Nat, (b1.Board[j]?).map Piece.unplaced = (b.Board[j]?).map Piece.unplaced := by
  rcases castleHandler_cases h with ⟨hb, _⟩ | ⟨_, _, _, _, _, _, _, _, _, hp⟩
  · rw [hb]
    exact ⟨rfl, fun _ => rfl⟩
  · rcases castlePlace_cases hp with ⟨_, _, hb⟩ | ⟨_, _, _, ⟨_, _, hb⟩ | ⟨_, _, hb⟩ | ⟨_, _, hb⟩⟩
    · rw [hb]
      refine ⟨by simp, fun j => ?_⟩
      simp only
      refine Eq.trans (unplaced_modify _ _ _ _ ?_) (unplaced_modify _ _ _ _ ?_) <;>
        intro _ <;> rfl
    · rw [hb]
      refine ⟨by simp, fun j => ?_⟩
      simp only
      refine Eq.trans (unplaced_modify _ _ _ _ ?_) (unplaced_modify _ _ _ _ ?_) <;>
        intro _ <;> rfl
    · rw [hb]
      refine ⟨by simp, fun j => ?_⟩
      simp only
      refine Eq.trans (unplaced_modify _ _ _ _ ?_) (unplaced_modify _ _ _ _ ?_) <;>
        intro _ <;> rfl
    · rw [hb]
      refine ⟨by simp, fun j => ?_⟩
      simp only
      exact unplaced_modify _ _ _ _ (fun _ => rfl)

/-- A return of `Move` through the castling path changed positions only. -/
theorem Move_castle_frame {env : Env} {b b1 : Board} {m : Move} {e : Option String}
    (hd : isCastleDispatch m = true) (h : b.Move env m = .returned b1 e) :
    b1.Board.length = b.Board.length ∧
      ∀ j : Nat, (b1.Board[j]?).map Piece.unplaced = (b.Board[j]?).map Piece.unplaced := by
  unfold Board.Move at h
  rw [hd] at h
  simp only [if_true] at h
  cases hc : b.castleHandler env m with
  | panicked => rw [hc] at h; cases h
  | returned b2 e2 =>
    rw [hc] at h
    cases e2 with
    | none =>
      cases h
      exact ⟨(castleHandler_frame hc).1, (castleHandler_frame hc).2⟩
    | some msg => cases h; exact castleHandler_frame hc

theorem unplaced_fields {p q : Piece} (h : p.unplaced = q.unplaced) :
    p.Name = q.Name ∧ p.Color = q.Color ∧ p.Can_castle = q.Can_castle ∧
      p.Can_double_move = q.Can_double_move ∧ p.Can_en_passant = q.Can_en_passant := by
  unfold Piece.unplaced at h
  simp only [Piece.mk.injEq] at h
  exact ⟨h.1, h.2.2.1, h.2.2.2.2.2.2.1, h.2.2.2.2.2.2.2.1, h.2.2.2.2.2.2.2.2⟩

/-- After a return through the castling path every slot holds the piece it
held, up to its position. -/
theorem Move_castle_slot {env : Env} {b b1 : Board} {m : Move} {e : Option String}
    (hd : isCastleDispatch m = true) (h : b.Move env m = .returned b1 e)
    {j : Nat} {p : Piece} (hp : b.Board[j]? = some p) :
    ∃ p1, b1.Board[j]? = some p1 ∧ p1.unplaced = p.unplaced := by
  have hj := (Move_castle_frame hd h).2 j
  rw [hp] at hj
  cases h1 : b1.Board[j]? with
  | none => rw [h1] at hj; cases hj
  | some p1 =>
    rw [h1] at hj
    exact ⟨p1, rfl, by simpa using hj⟩

/-- A nil return of `Move` through the castling path is a nil return of
`castleHandler` with the same slice. -/
theorem Move_castle_nil {env : Env} {b b1 : Board} {m : Move}
    (hd : isCastleDispatch m = true) (h : b.Move env m = .returned b1 none) :
    ∃ b2, b.castleHandler env m = .returned b2 none ∧ b1.Board = b2.Board := by
  unfold Board.Move at h
  rw [hd] at h
  simp only [if_true] at h
  cases hc : b.castleHandler env m with
  | panicked => rw [hc] at h; cases h
  | returned b2 e2 =>
    rw [hc] at h
    cases e2 with
    | none => cases h; exact ⟨b2, rfl, rfl⟩
    | some msg => cases h

/-- An error return of `Move` through the castling path is that of `castleHandler`. -/
theorem Move_castle_some {env : Env} {b b1 : Board} {m : Move} {e : String}
    (hd : isCastleDispatch m = true) (h : b.Move env m = .returned b1 (some e)) :
    b.castleHandler env m = .returned b1 (some e) := by
  unfold Board.Move at h
  rw [hd] at h
  simp only [if_true] at h
  cases hc : b.castleHandler env m with
  | panicked => rw [hc] at h; cases h
  | returned b2 e2 =>
    rw [hc] at h
    cases e2 with
    | none => cases h
    | some msg => cases h; rfl

/-- C16. The castling path clears no castling right: after every nil return of
`Move` through `castleHandler` the slot taken for the king and the slot taken
for the rook both still have `Can_castle = true`. -/
theorem Move_castle_keeps_rights (env : Env) (b b1 : Board) (m : Move)
    (hd : isCastleDispatch m = true) (h : b.Move env m = .returned b1 none) :
    ∃ king rook,
      b1.Board[(castleScan m b.Turn b.Board 0 {}).kingindex]? = some king ∧
      b1.Board[(castleScan m b.Turn b.Board 0 {}).rookindex]? = some rook ∧
      king.Can_castle = true ∧ rook.Can_castle = true := by
  obtain ⟨b2, hc, _⟩ := Move_castle_nil hd h
  rcases castleHandler_cases hc with ⟨_, he⟩ | ⟨king, rook, hk, hr, _, hkc, hrc, _⟩
  · exact absurd rfl he
  · obtain ⟨k1, hk1, hku⟩ := Move_castle_slot hd h hk
    obtain ⟨r1, hr1, hru⟩ := Move_castle_slot hd h hr
    exact ⟨k1, r1, hk1, hr1, by rw [(unplaced_fields hku).2.2.1, hkc],
      by rw [(unplaced_fields hru).2.2.1, hrc]⟩

theorem Move_castle_keeps_rights_witness :
    castleBoard.Move quietEnv (moveOf "k" 5 1 7 1) = .returned castleBoardAfter none ∧
      ∃ king rook, castleBoardAfter.Board[0]? = some king ∧
        castleBoardAfter.Board[1]? = some rook ∧
        king.Can_castle = true ∧ rook.Can_castle = true :=
  ⟨by decide,
    Move_castle_keeps_rights quietEnv castleBoard castleBoardAfter (moveOf "k" 5 1 7 1)
      (by decide) (by decide)⟩

/-- The ordinary path does clear the right: after a nil return for a move named
"k" or "r" the located mover has `Can_castle = false`. -/
theorem Move_ordinary_clears_right (env : Env) (b b1 : Board) (m : Move)
    (hd : isCastleDispatch m = false) (hkr : m.Piece = "k" ∨ m.Piece = "r")
    (h : b.Move env m = .returned b1 none) :
    ∃ p1, b1.Board[(locate m b.Turn b.Board 0 {}).pieceindex]? = some p1 ∧
      p1.Can_castle = false := by
  obtain ⟨move, mover, _, _, _, hmover, _, _, hall⟩ := Move_success_shape hd h
  refine ⟨_, by rw [hall, hmover]; rfl, ?_⟩
  simp [pieceAfter, hkr]

/-- C17. The castling path clears no en-passant flag: after every nil return of
`Move` through `castleHandler` each slot has the `Can_en_passant` it had, so a
flag set by the move before is still set. -/
theorem Move_castle_keeps_flags (env : Env) (b b1 : Board) (m : Move)
    (hd : isCastleDispatch m = true) (h : b.Move env m = .returned b1 none) :
    ∀ (j : Nat) (p : Piece), b.Board[j]? = some p →
      ∃ p1, b1.Board[j]? = some p1 ∧ p1.Can_en_passant = p.Can_en_passant := by
  intro j p hp
  obtain ⟨p1, hp1, hu⟩ := Move_castle_slot hd h hp
  exact ⟨p1, hp1, (unplaced_fields hu).2.2.2.2⟩

theorem Move_castle_keeps_flags_witness :
    flaggedBoard.Move quietEnv (moveOf "k" 5 1 7 1) = .returned flaggedBoardAfter none ∧
      ∃ p1, flaggedBoardAfter.Board[2]? = some p1 ∧ p1.Can_en_passant = true :=
  ⟨by decide,
    Move_castle_keeps_flags quietEnv flaggedBoard flaggedBoardAfter (moveOf "k" 5 1 7 1)
      (by decide) (by decide) 2 { pieceAt "p" (-1) 2 5 with Can_en_passant := true } rfl⟩

theorem double_step_iff (y1 y2 c : Int) :
    isub y1 y2 = imul 2 (ineg c) ↔ isub y2 y1 = imul 2 c := by
  unfold isub imul ineg wrap64
  omega

/-- The ordinary path does give the flag a single ply: after a nil return a slot
has `Can_en_passant = true` exactly when it is the located mover, the move is
named "p" and `End.Y - Begin.Y = 2 * Color` in Go's arithmetic. -/
theorem Move_ordinary_flags (env : Env) (b b1 : Board) (m : Move)
    (hd : isCastleDispatch m = false) (h : b.Move env m = .returned b1 none) :
    ∃ mover, b.Board[(locate m b.Turn b.Board 0 {}).pieceindex]? = some mover ∧
      ∀ (j : Nat) (p1 : Piece), b1.Board[j]? = some p1 →
        (p1.Can_en_passant = true ↔
          j = (locate m b.Turn b.Board 0 {}).pieceindex ∧ m.Piece = "p" ∧
            isub m.End.Y m.Begin.Y = imul 2 mover.Color) := by
  obtain ⟨move, mover, _, _, _, hmover, _, _, hall⟩ := Move_success_shape hd h
  refine ⟨mover, hmover, fun j p1 hp1 => ?_⟩
  rw [hall] at hp1
  cases hj : b.Board[j]? with
  | none => rw [hj] at hp1; cases hp1
  | some p =>
    rw [hj] at hp1
    simp only [Option.map_some', Option.some.injEq] at hp1
    rw [← hp1]
    simp only [pieceAfter, decide_eq_true_eq, double_step_iff]

/-- C18. Whatever `Move` returns, nil or an error, on either path: the slice
has as many slots as before and every slot holds a piece of the colour and
name it had.  After a nil return of the ordinary path that made a capture
(ordinary or en passant) the victim's slot is still there, with position `(0,0)`. -/
theorem Move_keeps_slots (env : Env) (b b1 : Board) (m : Move) (e : Option String)
    (h : b.Move env m = .returned b1 e) :
    b1.Board.length = b.Board.length ∧
      (∀ (j : Nat) (p : Piece), b.Board[j]? = some p →
        ∃ p1, b1.Board[j]? = some p1 ∧ p1.Color = p.Color ∧ p1.Name = p.Name) ∧
      (isCastleDispatch m = false → e = none →
        ((locate m b.Turn b.Board 0 {}).capture ||
          enPassantBranch m (locate m b.Turn b.Board 0 {})) = true →
        ∃ q q1,
          b.Board[victimIndex m (locate m b.Turn b.Board 0 {})
            (b.Board.modify (fun p => { p with Position := m.End })
              (locate m b.Turn b.Board 0 {}).pieceindex)]? = some q ∧
          b1.Board[victimIndex m (locate m b.Turn b.Board 0 {})
            (b.Board.modify (fun p => { p with Position := m.End })
              (locate m b.Turn b.Board 0 {}).pieceindex)]? = some q1 ∧
          q1.Position = { X := 0, Y := 0 } ∧ q1.Color = q.Color ∧ q1.Name = q.Name) := by
  cases hd : isCastleDispatch m
  · rcases Move_ordinary env b m hd with ⟨_, hr⟩ | ⟨_, _, hr⟩ | ⟨_, _, hf, _, _, hr⟩
    · rw [hr] at h
      cases h
      exact ⟨rfl, fun j p hp => ⟨p, hp, rfl, rfl⟩, fun _ he => by cases he⟩
    · rw [hr] at h
      cases h
      exact ⟨rfl, fun j p hp => ⟨p, hp, rfl, rfl⟩, fun _ he => by cases he⟩
    · rw [hr] at h
      cases h
      obtain ⟨move, mover, _, _, hgo, _, _, hlen, hall⟩ := Move_success_shape hd hr
      rw [(goEq_fields hgo).2.2] at hall
      refine ⟨hlen, fun j p hp => ?_, fun _ _ hc => ?_⟩
      · refine ⟨_, by rw [hall, hp]; rfl, ?_, ?_⟩ <;> rfl
      have hv := victimIndex_lt (locate_spec m b) hf
        (show (b.Board.modify (fun p => { p with Position := m.End })
          (locate m b.Turn b.Board 0 {}).pieceindex).length = b.Board.length by simp) hc
      refine ⟨_, _, List.getElem?_eq_getElem hv, by rw [hall, List.getElem?_eq_getElem hv]; rfl,
        ?_, ?_, ?_⟩
      · simp [pieceAfter, hc]
      · rfl
      · rfl
  · obtain ⟨hlen, _⟩ := Move_castle_frame hd h
    refine ⟨hlen, fun j p hp => ?_, fun hf => by cases hf⟩
    obtain ⟨p1, hp1, hu⟩ := Move_castle_slot hd h hp
    exact ⟨p1, hp1, (unplaced_fields hu).2.1, (unplaced_fields hu).1⟩

theorem Move_keeps_slots_witness :
    rookBoardAfter.Board.length = rookBoard.Board.length ∧
      (∀ (j : Nat) (p : Piece), rookBoard.Board[j]? = some p →
        ∃ p1, rookBoardAfter.Board[j]? = some p1 ∧ p1.Color = p.Color ∧ p1.Name = p.Name) ∧
      ∃ q q1, rookBoard.Board[1]? = some q ∧ rookBoardAfter.Board[1]? = some q1 ∧
        q1.Position = { X := 0, Y := 0 } ∧ q1.Color = q.Color ∧ q1.Name = q.Name :=
  ⟨(Move_keeps_slots rookEnv rookBoard rookBoardAfter (moveOf "r" 1 1 2 1) none
      (by decide)).1,
    (Move_keeps_slots rookEnv rookBoard rookBoardAfter (moveOf "r" 1 1 2 1) none
      (by decide)).2.1,
    (Move_keeps_slots rookEnv rookBoard rookBoardAfter (moveOf "r" 1 1 2 1) none
      (by decide)).2.2 (by decide) rfl (by decide)⟩

theorem iadd_one_of_inRange (lo : Int) (h1 : -9223372036854775809 ≤ lo)
    (h2 : lo < 9223372036854775807) : iadd lo 1 = lo + 1 := by
  unfold iadd wrap64
  omega

/-- The loop of lines 140-148 tests exactly the squares of rank `y` whose file
lies strictly between `lo` and `hi`. -/
theorem pathBlocked_iff (env : Env) (b : Board) (lo hi y : Int)
    (h1 : -9223372036854775809 ≤ lo) (h2 : lo < 9223372036854775807) :
    pathBlocked env b lo hi y = true ↔
      ∃ x : Int, lo < x ∧ x < hi ∧ env.occupied b { X := x, Y := y } ≠ 0 := by
  unfold pathBlocked
  rw [iadd_one_of_inRange lo h1 h2, List.any_eq_true]
  constructor
  · rintro ⟨k, hk, hocc⟩
    rw [List.mem_range] at hk
    refine ⟨lo + 1 + (k : Int), by omega, by omega, ?_⟩
    simpa using hocc
  · rintro ⟨x, hlo, hhi, hocc⟩
    refine ⟨(x - (lo + 1)).toNat, ?_, ?_⟩
    · rw [List.mem_range]
      omega
    · have hx : lo + 1 + ((x - (lo + 1)).toNat : Int) = x := by omega
      rw [hx]
      simpa using hocc

theorem pathBlocked_eq_false (env : Env) (b : Board) (lo hi y : Int)
    (h1 : -9223372036854775809 ≤ lo) (h2 : lo < 9223372036854775807)
    (h : ∀ x : Int, lo < x → x < hi → env.occupied b { X := x, Y := y } = 0) :
    pathBlocked env b lo hi y = false := by
  cases hp : pathBlocked env b lo hi y
  · rfl
  · obtain ⟨x, hlo, hhi, hocc⟩ := (pathBlocked_iff env b lo hi y h1 h2).mp hp
    exact absurd (h x hlo hhi) hocc

/-- `castleHandler` reaches lines 149-160 once no check is reported, both
rights are set, a rook was found and the path is free. -/
theorem castleHandler_reaches_place (env : Env) (b : Board) (m : Move) (king rook : Piece)
    (hc : env.isCheck b b.Turn = false)
    (hk : b.Board[(castleScan m b.Turn b.Board 0 {}).kingindex]? = some king)
    (hkc : king.Can_castle = true)
    (hrf : (castleScan m b.Turn b.Board 0 {}).rookfound = true)
    (hr : b.Board[(castleScan m b.Turn b.Board 0 {}).rookindex]? = some rook)
    (hrc : rook.Can_castle = true)
    (hp : pathBlocked env b (minInt rook.Position.X king.Position.X)
      (maxInt rook.Position.X king.Position.X) king.Position.Y = false) :
    b.castleHandler env m = castlePlace env b m (castleScan m b.Turn b.Board 0 {}) := by
  unfold Board.castleHandler
  rw [hc]
  simp only [Bool.false_eq_true, if_false]
  rw [hk]
  simp only [hkc, hrf, Bool.not_true, Bool.false_eq_true, if_false]
  rw [hr]
  simp only [hrc, hp, Bool.not_true, Bool.false_eq_true, if_false]

theorem Move_of_castle_error {env : Env} {b b1 : Board} {m : Move} {e : String}
    (hd : isCastleDispatch m = true) (h : b.castleHandler env m = .returned b1 (some e)) :
    b.Move env m = .returned b1 (some e) := by
  unfold Board.Move
  rw [hd, h]
  rfl

theorem Move_of_castle_nil {env : Env} {b b1 : Board} {m : Move}
    (hd : isCastleDispatch m = true) (h : b.castleHandler env m = .returned b1 none) :
    b.Move env m =
      .returned { b1 with Turn := imul b1.Turn (-1), Lastmove := m } none := by
  unfold Board.Move
  rw [hd, h]
  rfl

/-- With a king of the side to move on `m.Begin` the castling path returns; an
error leaves the board as it was. -/
theorem castleHandler_with_king (env : Env) (b : Board) (m : Move)
    (hd : isCastleDispatch m = true)
    (hex : ∃ p ∈ b.Board, p.Position = m.Begin ∧ p.Name = m.Piece ∧ p.Color = b.Turn) :
    (∃ b1, b.castleHandler env m = .returned b1 none) ∨
      ∃ e, b.castleHandler env m = .returned b (some e) := by
  have hne : b.Board ≠ [] := by
    obtain ⟨p, hp, _⟩ := hex
    exact List.ne_nil_of_mem hp
  cases hc : b.castleHandler env m with
  | panicked => exact absurd ((castleHandler_panicked_iff env b m).mp hc).2 hne
  | returned b2 e2 =>
    cases e2 with
    | none => exact Or.inl ⟨b2, rfl⟩
    | some msg =>
      right
      have hm := Move_of_castle_error hd hc
      have hb := Move_castle_error_with_king env b b2 m msg hd hex hm
      exact ⟨msg, by rw [hb]⟩

/-- C13. The castling path with a king of the side to move on `m.Begin` (a 64-bit
file): when `occupied` is non-zero on a square of the king's rank whose file
lies strictly between the king's file and the rook's file (8 for destination
file 7, 1 for destination file 3), `Move` returns an error and the board is as
before.  The loop of lines 140-148 tests exactly the squares with file strictly
between its two bounds. -/
theorem Move_castle_blocked (env : Env) (b : Board) (m : Move)
    (hd : isCastleDispatch m = true)
    (hex : ∃ p ∈ b.Board, p.Position = m.Begin ∧ p.Name = m.Piece ∧ p.Color = b.Turn)
    (hlo : -9223372036854775808 ≤ m.Begin.X) (x : Int)
    (hx : (m.End.X = 7 ∧ minInt 8 m.Begin.X < x ∧ x < maxInt 8 m.Begin.X) ∨
      (m.End.X = 3 ∧ minInt 1 m.Begin.X < x ∧ x < maxInt 1 m.Begin.X))
    (hocc : env.occupied b { X := x, Y := m.Begin.Y } ≠ 0) :
    (∀ lo hi y : Int, -9223372036854775809 ≤ lo → lo < 9223372036854775807 →
        (pathBlocked env b lo hi y = true ↔
          ∃ z : Int, lo < z ∧ z < hi ∧ env.occupied b { X := z, Y := y } ≠ 0)) ∧
      ∃ e, b.Move env m = .returned b (some e) := by
  refine ⟨fun lo hi y h1 h2 => pathBlocked_iff env b lo hi y h1 h2, ?_⟩
  rcases castleHandler_with_king env b m hd hex with ⟨b1, hc⟩ | ⟨e, hc⟩
  · exfalso
    rcases castleHandler_cases hc with ⟨_, he⟩ | ⟨king, rook, hk, hr, _, _, _, hrf, hp, _⟩
    · exact he rfl
    · obtain ⟨p, hp1, hmv⟩ := castleScan_king m b hex
      rw [hk] at hp1
      cases hp1
      obtain ⟨q, hq, _, hqr⟩ := (castleScan_spec m b).rook hrf
      rw [hr] at hq
      cases hq
      rw [← hmv.1] at hp
      have hrx : (m.End.X = 7 ∧ rook.Position.X = 8) ∨ (m.End.X = 3 ∧ rook.Position.X = 1) :=
        hqr.1.2
      have hblocked : pathBlocked env b (minInt rook.Position.X m.Begin.X)
          (maxInt rook.Position.X m.Begin.X) m.Begin.Y = true := by
        rcases hx with ⟨h7, hx1, hx2⟩ | ⟨h3, hx1, hx2⟩
        · have hr8 : rook.Position.X = 8 := by
            rcases hrx with hh | hh
            · exact hh.2
            · rw [h7] at hh; exact absurd hh.1 (by decide)
          rw [hr8]
          refine (pathBlocked_iff env b _ _ _ ?_ ?_).mpr ⟨x, hx1, hx2, hocc⟩
          · unfold minInt; split <;> omega
          · unfold minInt; split <;> omega
        · have hr1 : rook.Position.X = 1 := by
            rcases hrx with hh | hh
            · rw [h3] at hh; exact absurd hh.1 (by decide)
            · exact hh.2
          rw [hr1]
          refine (pathBlocked_iff env b _ _ _ ?_ ?_).mpr ⟨x, hx1, hx2, hocc⟩
          · unfold minInt; split <;> omega
          · unfold minInt; split <;> omega
      rw [hp] at hblocked
      cases hblocked
  · exact ⟨e, Move_of_castle_error hd hc⟩

theorem Move_castle_blocked_witness :
    blockedBoard.Move quietEnv (moveOf "k" 5 1 7 1) =
        .returned blockedBoard (some "func castleHandler: castle path is blocked") ∧
      ∃ e, blockedBoard.Move quietEnv (moveOf "k" 5 1 7 1) = .returned blockedBoard (some e) :=
  ⟨by decide,
    (Move_castle_blocked quietEnv blockedBoard (moveOf "k" 5 1 7 1) (by decide) (by decide)
      (by decide) 6 (by decide) (by decide)).2⟩

/-- C14. The castling path with a king of the side to move on `m.Begin`: the
slot `castleHandler` takes for the king is such a king, and when it, or the
slot taken for the rook, has `Can_castle = false`, `Move` returns an error and
the board is as before. -/
theorem Move_castle_needs_rights (env : Env) (b : Board) (m : Move)
    (hd : isCastleDispatch m = true)
    (hex : ∃ p ∈ b.Board, p.Position = m.Begin ∧ p.Name = m.Piece ∧ p.Color = b.Turn)
    (hright :
      (∃ king, b.Board[(castleScan m b.Turn b.Board 0 {}).kingindex]? = some king ∧
        king.Can_castle = false) ∨
      (∃ rook, b.Board[(castleScan m b.Turn b.Board 0 {}).rookindex]? = some rook ∧
        rook.Can_castle = false)) :
    (∃ king, b.Board[(castleScan m b.Turn b.Board 0 {}).kingindex]? = some king ∧
        king.Position = m.Begin ∧ king.Name = m.Piece ∧ king.Color = b.Turn) ∧
      ∃ e, b.Move env m = .returned b (some e) := by
  obtain ⟨p, hp1, hmv⟩ := castleScan_king m b hex
  refine ⟨⟨p, hp1, hmv.1.symm, hmv.2.1.symm, hmv.2.2.symm⟩, ?_⟩
  rcases castleHandler_with_king env b m hd hex with ⟨b1, hc⟩ | ⟨e, hc⟩
  · exfalso
    rcases castleHandler_cases hc with ⟨_, he⟩ | ⟨king, rook, hk, hr, _, hkc, hrc, _⟩
    · exact he rfl
    · rcases hright with ⟨k0, hk0, hf⟩ | ⟨r0, hr0, hf⟩
      · rw [hk] at hk0
        cases hk0
        rw [hkc] at hf
        cases hf
      · rw [hr] at hr0
        cases hr0
        rw [hrc] at hf
        cases hf
  · exact ⟨e, Move_of_castle_error hd hc⟩

theorem Move_castle_needs_rights_witness :
    movedRookBoard.Move quietEnv (moveOf "k" 5 1 7 1) =
        .returned movedRookBoard (some "func castleHandler: rook has already moved") ∧
      ∃ e, movedRookBoard.Move quietEnv (moveOf "k" 5 1 7 1) =
        .returned movedRookBoard (some e) :=
  ⟨by decide,
    (Move_castle_needs_rights quietEnv movedRookBoard (moveOf "k" 5 1 7 1) (by decide)
      (by decide) (Or.inr ⟨pieceAt "r" 1 8 1, by decide, by decide⟩)).2⟩

/-- The castling path refuses a side reported in check, on every board; and
with a king of the side to move on `m.Begin`, a destination on which the king
is reported in check is refused with the board as before. -/
theorem Move_castle_check_refused (env : Env) (b : Board) (m : Move)
    (hd : isCastleDispatch m = true) :
    (env.isCheck b b.Turn = true →
        b.Move env m = .returned b (some "func castleHandler: king is in check")) ∧
      ((∃ p ∈ b.Board, p.Position = m.Begin ∧ p.Name = m.Piece ∧ p.Color = b.Turn) →
        env.isCheck { b with Board := (b.Board.modify (fun p => { p with Position := m.End })
          (castleScan m b.Turn b.Board 0 {}).kingindex) } b.Turn = true →
        ∃ e, b.Move env m = .returned b (some e)) := by
  constructor
  · intro hc
    apply Move_of_castle_error hd
    unfold Board.castleHandler
    rw [if_pos hc]
  · intro hex hc
    rcases castleHandler_with_king env b m hd hex with ⟨b1, hh⟩ | ⟨e, hh⟩
    · exfalso
      rcases castleHandler_cases hh with ⟨_, he⟩ | ⟨_, _, _, _, _, _, _, _, _, hp⟩
      · exact he rfl
      · rcases castlePlace_cases hp with ⟨_, he, _⟩ | ⟨hn, _⟩
        · cases he
        · rw [hc] at hn
          cases hn
    · exact ⟨e, Move_of_castle_error hd hh⟩

theorem castlePlace_check_eq (env : Env) (b : Board) (m : Move) (s : Castling)
    (hk : s.kingindex < b.Board.length)
    (hc : env.isCheck { b with Board := (b.Board.modify (fun p => { p with Position := m.End })
      s.kingindex) } b.Turn = true) :
    castlePlace env b m s =
      .returned { b with Board := ((b.Board.modify (fun p => { p with Position := m.End })
          s.kingindex).modify (fun p => { p with Position := m.Begin }) s.kingindex) }
        (some "func castleHandler: castle places user in check") := by
  unfold castlePlace
  rw [setAt_eq_some.mpr ⟨hk, rfl⟩]
  simp only
  rw [if_pos hc, setAt_eq_some.mpr ⟨by simpa using hk, rfl⟩]

theorem castlePlace_seven_eq (env : Env) (b : Board) (m : Move) (s : Castling)
    (hk : s.kingindex < b.Board.length) (hr : s.rookindex < b.Board.length)
    (h7 : m.End.X = 7)
    (hc : env.isCheck { b with Board := (b.Board.modify (fun p => { p with Position := m.End })
      s.kingindex) } b.Turn = false) :
    castlePlace env b m s =
      .returned { b with Board := ((b.Board.modify (fun p => { p with Position := m.End })
          s.kingindex).modify
            (fun p => { p with Position := { p.Position with X := 6 } }) s.rookindex) }
        none := by
  have h3 : ¬ m.End.X = 3 := by rw [h7]; decide
  unfold castlePlace
  rw [setAt_eq_some.mpr ⟨hk, rfl⟩]
  simp only
  rw [hc]
  simp only [Bool.false_eq_true, if_false]
  rw [if_pos h7, setAt_eq_some.mpr ⟨by simpa using hr, rfl⟩]
  simp only [if_neg h3]

/-- A nil return of the castling path has destination file 7 or 3; nothing else
about `m.End` is tested. -/
theorem Move_castle_nil_file (env : Env) (b b1 : Board) (m : Move)
    (hd : isCastleDispatch m = true) (h : b.Move env m = .returned b1 none) :
    m.End.X = 7 ∨ m.End.X = 3 := by
  obtain ⟨b2, hc, _⟩ := Move_castle_nil hd h
  rcases castleScan_rookfound _ _ _ (castleHandler_nil_rookfound hc) with h0 | h0
  · cases h0
  · exact h0

/-- C11. The castling path on `castleBoard` (white king on e1 and white rook on
h1 with their rights) for the king move e1-g5: whenever white is in check
neither before nor with the king on g5 and f1, g1 are free, `Move` returns nil
and the king stands on g5, four ranks from where it started. -/
theorem castle_to_far_rank (env : Env)
    (h1 : env.isCheck castleBoard 1 = false)
    (h2 : env.occupied castleBoard { X := 6, Y := 1 } = 0)
    (h3 : env.occupied castleBoard { X := 7, Y := 1 } = 0)
    (h4 : env.isCheck farBoardTentative 1 = false) :
    isCastleDispatch farMove = true ∧
      (∃ p ∈ castleBoard.Board, p.Position = farMove.Begin ∧ p.Name = farMove.Piece ∧
        p.Color = castleBoard.Turn) ∧
      castleBoard.Move env farMove = .returned farBoardAfter none ∧
      farMove.End.Y ≠ farMove.Begin.Y ∧
      ∃ king, farBoardAfter.Board[0]? = some king ∧ king.Name = "k" ∧
        king.Position = { X := 7, Y := 5 } := by
  refine ⟨by decide, by decide, ?_, by decide, by decide⟩
  have hplace := castleHandler_reaches_place env castleBoard farMove
    { pieceAt "k" 1 5 1 with Can_castle := true } { pieceAt "r" 1 8 1 with Can_castle := true }
    h1 (by decide) rfl (by decide) (by decide) rfl
    (pathBlocked_eq_false env castleBoard _ _ _ (by decide) (by decide) (by
      intro x hx1 hx2
      have hx1' : (5 : Int) < x := hx1
      have hx2' : x < (8 : Int) := hx2
      have : x = 6 ∨ x = 7 := by omega
      rcases this with rfl | rfl
      · exact h2
      · exact h3))
  have hc := castlePlace_seven_eq env castleBoard farMove
    (castleScan farMove castleBoard.Turn castleBoard.Board 0 {}) (by decide) (by decide)
    (by decide) h4
  rw [← hplace] at hc
  rw [Move_of_castle_nil (by decide) hc]
  decide

theorem castle_to_far_rank_witness :
    isCastleDispatch farMove = true ∧
      (∃ p ∈ castleBoard.Board, p.Position = farMove.Begin ∧ p.Name = farMove.Piece ∧
        p.Color = castleBoard.Turn) ∧
      castleBoard.Move quietEnv farMove = .returned farBoardAfter none ∧
      farMove.End.Y ≠ farMove.Begin.Y ∧
      ∃ king, farBoardAfter.Board[0]? = some king ∧ king.Name = "k" ∧
        king.Position = { X := 7, Y := 5 } :=
  castle_to_far_rank quietEnv (by decide) (by decide) (by decide) (by decide)

/-- A nil return of the castling path had a piece named "r" on the corner of the
home rank of the side to move; its colour is not tested. -/
theorem Move_castle_nil_rook (env : Env) (b b1 : Board) (m : Move)
    (hd : isCastleDispatch m = true) (h : b.Move env m = .returned b1 none) :
    ∃ q, b.Board[(castleScan m b.Turn b.Board 0 {}).rookindex]? = some q ∧
      isCornerRook m b.Turn q := by
  obtain ⟨b2, hc, _⟩ := Move_castle_nil hd h
  obtain ⟨q, hq, _, hqr⟩ := (castleScan_spec m b).rook (castleHandler_nil_rookfound hc)
  exact ⟨q, hq, hqr⟩

/-- C12. The castling path on `awayBoard`, white to move: white has no rook, a
black rook with `Can_castle` set stands on h1 and the white king, with its
right, on e2.  For the king move e2-g2, whenever white is in check neither
before nor with the king on g2 and f2, g2 are free, `Move` returns nil and the
black rook has been moved to f1. -/
theorem castle_with_opposing_rook (env : Env)
    (h1 : env.isCheck awayBoard 1 = false)
    (h2 : env.occupied awayBoard { X := 6, Y := 2 } = 0)
    (h3 : env.occupied awayBoard { X := 7, Y := 2 } = 0)
    (h4 : env.isCheck awayBoardTentative 1 = false) :
    isCastleDispatch (moveOf "k" 5 2 7 2) = true ∧
      (∀ p ∈ awayBoard.Board, p.Name = "r" → p.Color ≠ awayBoard.Turn) ∧
      awayBoard.Move env (moveOf "k" 5 2 7 2) = .returned awayBoardAfter none ∧
      ∃ rook, awayBoardAfter.Board[1]? = some rook ∧ rook.Name = "r" ∧ rook.Color = -1 ∧
        rook.Position = { X := 6, Y := 1 } := by
  refine ⟨by decide, by decide, ?_, by decide⟩
  have hplace := castleHandler_reaches_place env awayBoard (moveOf "k" 5 2 7 2)
    { pieceAt "k" 1 5 2 with Can_castle := true }
    { pieceAt "r" (-1) 8 1 with Can_castle := true }
    h1 (by decide) rfl (by decide) (by decide) rfl
    (pathBlocked_eq_false env awayBoard _ _ _ (by decide) (by decide) (by
      intro x hx1 hx2
      have hx1' : (5 : Int) < x := hx1
      have hx2' : x < (8 : Int) := hx2
      have : x = 6 ∨ x = 7 := by omega
      rcases this with rfl | rfl
      · exact h2
      · exact h3))
  have hc := castlePlace_seven_eq env awayBoard (moveOf "k" 5 2 7 2)
    (castleScan (moveOf "k" 5 2 7 2) awayBoard.Turn awayBoard.Board 0 {}) (by decide)
    (by decide) (by decide) h4
  rw [← hplace] at hc
  rw [Move_of_castle_nil (by decide) hc]
  decide

theorem castle_with_opposing_rook_witness :
    isCastleDispatch (moveOf "k" 5 2 7 2) = true ∧
      (∀ p ∈ awayBoard.Board, p.Name = "r" → p.Color ≠ awayBoard.Turn) ∧
      awayBoard.Move quietEnv (moveOf "k" 5 2 7 2) = .returned awayBoardAfter none ∧
      ∃ rook, awayBoardAfter.Board[1]? = some rook ∧ rook.Name = "r" ∧ rook.Color = -1 ∧
        rook.Position = { X := 6, Y := 1 } :=
  castle_with_opposing_rook quietEnv (by decide) (by decide) (by decide) (by decide)

/-- C15. The castling path on `mirrorBoard`, white to move, for the king move
e1-g1 while no white king stands on e1: slot 0, the black king on e8, is taken
for the king.  Whenever white is not in check before, f8 and g8 are free and
white is in check with slot 0 on g1, `Move` returns the error of line 152 and
slot 0 is left on e1, not on e8 where it stood. -/
theorem castle_check_restores_elsewhere (env : Env)
    (h1 : env.isCheck mirrorBoard 1 = false)
    (h2 : env.occupied mirrorBoard { X := 6, Y := 8 } = 0)
    (h3 : env.occupied mirrorBoard { X := 7, Y := 8 } = 0)
    (h4 : env.isCheck mirrorBoardTentative 1 = true) :
    isCastleDispatch (moveOf "k" 5 1 7 1) = true ∧
      mirrorBoard.Move env (moveOf "k" 5 1 7 1) =
        .returned mirrorBoardAfter (some "func castleHandler: castle places user in check") ∧
      (∃ p, mirrorBoard.Board[0]? = some p ∧ p.Position = { X := 5, Y := 8 }) ∧
      ∃ p1, mirrorBoardAfter.Board[0]? = some p1 ∧ p1.Position = { X := 5, Y := 1 } := by
  refine ⟨by decide, ?_, by decide, by decide⟩
  have hplace := castleHandler_reaches_place env mirrorBoard (moveOf "k" 5 1 7 1)
    { pieceAt "k" (-1) 5 8 with Can_castle := true }
    { pieceAt "r" 1 8 1 with Can_castle := true }
    h1 (by decide) rfl (by decide) (by decide) rfl
    (pathBlocked_eq_false env mirrorBoard _ _ _ (by decide) (by decide) (by
      intro x hx1 hx2
      have hx1' : (5 : Int) < x := hx1
      have hx2' : x < (8 : Int) := hx2
      have : x = 6 ∨ x = 7 := by omega
      rcases this with rfl | rfl
      · exact h2
      · exact h3))
  have hc := castlePlace_check_eq env mirrorBoard (moveOf "k" 5 1 7 1)
    (castleScan (moveOf "k" 5 1 7 1) mirrorBoard.Turn mirrorBoard.Board 0 {}) (by decide) h4
  rw [← hplace] at hc
  rw [Move_of_castle_error (by decide) hc]
  decide

theorem castle_check_restores_elsewhere_witness :
    isCastleDispatch (moveOf "k" 5 1 7 1) = true ∧
      mirrorBoard.Move mirrorEnv (moveOf "k" 5 1 7 1) =
        .returned mirrorBoardAfter (some "func castleHandler: castle places user in check") ∧
      (∃ p, mirrorBoard.Board[0]? = some p ∧ p.Position = { X := 5, Y := 8 }) ∧
      ∃ p1, mirrorBoardAfter.Board[0]? = some p1 ∧ p1.Position = { X := 5, Y := 1 } :=
  castle_check_restores_elsewhere mirrorEnv (by decide) (by decide) (by decide) (by decide)

theorem Float64.eq_zero_false (f g : Float64) (hf : f.isZero = false)
    (hg : g.isZero = true) : f.eq g = false := by
  unfold Float64.eq
  unfold Float64.isZero at hf hg
  simp only [beq_iff_eq, beq_eq_false_iff_ne, ne_eq] at hf hg
  have hne : ¬ (f.bits % 18446744073709551616 = g.bits % 18446744073709551616) := by
    omega
  simp [hne, Float64.isZero, hf]

theorem locate_score (m : Move) (sc : Float64) (turn : Int) :
    ∀ (ps : List Piece) (i : Nat) (s : Located),
      locate { m with Score := sc } turn ps i s = locate m turn ps i s
  | [], _, _ => rfl
  | p :: ps, i, s => by
    unfold locate
    have hstep : locateStep { m with Score := sc } turn i p s = locateStep m turn i p s := rfl
    simp only [hstep]
    split
    · rfl
    · exact locate_score m sc turn ps (i + 1) _

theorem castleScan_score (m : Move) (sc : Float64) (turn : Int) :
    ∀ (ps : List Piece) (i : Nat) (s : Castling),
      castleScan { m with Score := sc } turn ps i s = castleScan m turn ps i s
  | [], _, _ => rfl
  | p :: ps, i, s => by
    unfold castleScan
    have hstep : castleStep { m with Score := sc } turn i p s = castleStep m turn i p s := rfl
    simp only [hstep]
    split
    · rfl
    · exact castleScan_score m sc turn ps (i + 1) _

/-- `castleHandler` never reads the score of the move. -/
theorem castleHandler_score (env : Env) (b : Board) (m : Move) (sc : Float64) :
    b.castleHandler env { m with Score := sc } = b.castleHandler env m := by
  unfold Board.castleHandler
  simp only [castleScan_score]
  rfl

/-- C20. The ordinary path reads the score: `*m == move` of line 65 compares it.
When `legalMoves` offers only moves of score zero and a move of score zero is
accepted, the same move (piece, squares) with a score that is not zero is
refused as an "illegal move", with the board untouched. -/
theorem Move_reads_score (env : Env) (b b1 : Board) (m1 m2 : Move)
    (hd : isCastleDispatch m1 = false)
    (hp : m2.Piece = m1.Piece) (hb : m2.Begin = m1.Begin) (he : m2.End = m1.End)
    (hzero : ∀ mv ∈ env.legalMoves b (locate m1 b.Turn b.Board 0 {}).pieceindex true,
      mv.Score.isZero = true)
    (h2 : m2.Score.isZero = false)
    (h1 : b.Move env m1 = .returned b1 none) :
    b.Move env m2 = .returned b (some "func Move: illegal move") := by
  have hm2 : m2 = { m1 with Score := m2.Score } := by
    cases m2
    simp only at hp hb he
    rw [hp, hb, he]
  have hloc : locate m2 b.Turn b.Board 0 {} = locate m1 b.Turn b.Board 0 {} := by
    rw [hm2]
    exact locate_score m1 _ b.Turn b.Board 0 {}
  have hd2 : isCastleDispatch m2 = false := by
    unfold isCastleDispatch at hd ⊢
    rw [hp, hb, he]
    exact hd
  obtain ⟨_, _, hf, _⟩ := Move_success_shape hd h1
  rcases Move_ordinary env b m2 hd2 with ⟨hf2, _⟩ | ⟨_, _, hr⟩ | ⟨move, _, _, hfind, _⟩
  · rw [hloc, hf] at hf2
    cases hf2
  · exact hr
  · exfalso
    rw [hloc] at hfind
    have hmem := List.mem_of_find?_eq_some hfind
    have hgo := List.find?_some hfind
    have hsc : m2.Score.eq move.Score = false :=
      Float64.eq_zero_false _ _ h2 (hzero move hmem)
    unfold Move.goEq at hgo
    rw [hsc] at hgo
    simp at hgo

theorem Move_reads_score_witness :
    rookBoard.Move rookEnv (moveOf "r" 1 1 2 1) = .returned rookBoardAfter none ∧
      rookBoard.Move rookEnv scoredMove =
        .returned rookBoard (some "func Move: illegal move") :=
  ⟨by decide,
    Move_reads_score rookEnv rookBoard rookBoardAfter (moveOf "r" 1 1 2 1) scoredMove
      (by decide) rfl rfl rfl (by decide) (by decide) (by decide)⟩

/-- C21. Coordinate notation round trip.  For every square with file and rank
from 1 to 8, `squareToString` returns the string of two bytes, the letter
`'a' + (X - 1)` followed by the digit `'1' + (Y - 1)`, and `stringToSquare`
of that string returns the square. -/
theorem squareToString_round_trip (s : Square) (hx1 : 1 ≤ s.X) (hx8 : s.X ≤ 8)
    (hy1 : 1 ≤ s.Y) (hy8 : s.Y ≤ 8) :
    squareToString s = some ['a'.toNat + (s.X - 1).toNat, '1'.toNat + (s.Y - 1).toNat] ∧
      stringToSquare ['a'.toNat + (s.X - 1).toNat, '1'.toNat + (s.Y - 1).toNat] = some s := by
  obtain ⟨x, y⟩ := s
  simp only at hx1 hx8 hy1 hy8 ⊢
  interval_cases x <;> interval_cases y <;> decide

theorem squareToString_round_trip_witness :
    squareToString { X := 5, Y := 4 } = some ['e'.toNat, '4'.toNat] ∧
      stringToSquare ['e'.toNat, '4'.toNat] = some { X := 5, Y := 4 } :=
  squareToString_round_trip { X := 5, Y := 4 } (by decide) (by decide) (by decide) (by decide)

theorem capturedSlot_eq {b : Board} {m move : Move} (hgo : m.goEq move = true) :
    capturedSlot b m =
      if ((locate m b.Turn b.Board 0 {}).capture ||
          enPassantBranch m (locate m b.Turn b.Board 0 {})) = true then
        some (victimIndex m (locate m b.Turn b.Board 0 {})
          (b.Board.modify (fun p => { p with Position := move.End })
            (locate m b.Turn b.Board 0 {}).pieceindex))
      else none := by
  unfold capturedSlot
  rw [(goEq_fields hgo).2.2]

/-- C22. Only a real victim is removed.  Under the pawn rule the specification
gives for `legalMoves`, on the ordinary path of `Move`: after a nil return for a
destination other than `(0,0)`, every slot whose position changed to `(0,0)`
held a piece of colour `Turn * -1` on `m.End`, or, for a pawn move that changes
file by one, a piece on `(m.End.X, m.Begin.Y)`; and a pawn move that changes
file by one while no piece stands on `m.End` nor on `(m.End.X, m.Begin.Y)` is
refused: `Move` returns an error and the board is the one it was given, so no
piece is removed and slot 0 keeps its position. -/
theorem Move_removes_only_victims (env : Env) (b : Board) (m : Move)
    (hd : isCastleDispatch m = false)
    (hrule : PawnStepRule env b (locate m b.Turn b.Board 0 {}).pieceindex) :
    (∀ b1 : Board, b.Move env m = .returned b1 none → m.End ≠ { X := 0, Y := 0 } →
      ∀ (j : Nat) (p p1 : Piece), b.Board[j]? = some p → b1.Board[j]? = some p1 →
        p.Position ≠ { X := 0, Y := 0 } → p1.Position = { X := 0, Y := 0 } →
        (p.Position = m.End ∧ p.Color = imul b.Turn (-1)) ∨
          (m.Piece = "p" ∧ (isub m.Begin.X m.End.X = 1 ∨ isub m.End.X m.Begin.X = 1) ∧
            p.Position = { X := m.End.X, Y := m.Begin.Y })) ∧
      (m.Piece = "p" → (isub m.Begin.X m.End.X = 1 ∨ isub m.End.X m.Begin.X = 1) →
        (∀ q ∈ b.Board, q.Position ≠ m.End) →
        (∀ q ∈ b.Board, q.Position ≠ { X := m.End.X, Y := m.Begin.Y }) →
        ∃ e, b.Move env m = .returned b (some e)) := by
  have hinv := locate_spec m b
  constructor
  · intro b1 h hend j p p1 hj hj1 hne h0
    obtain ⟨move, mover, hf, hmem, hgo, hmover, hmv, _, hall⟩ := Move_success_shape hd h
    obtain ⟨_, _, hme⟩ := goEq_fields hgo
    rw [hall, hj] at hj1
    simp only [Option.map_some', Option.some.injEq] at hj1
    subst hj1
    simp only [pieceAfter] at h0
    by_cases hc : ((locate m b.Turn b.Board 0 {}).capture ||
        enPassantBranch m (locate m b.Turn b.Board 0 {})) = true ∧
        j = victimIndex m (locate m b.Turn b.Board 0 {})
          (b.Board.modify (fun p => { p with Position := move.End })
            (locate m b.Turn b.Board 0 {}).pieceindex)
    · obtain ⟨hcap, hjv⟩ := hc
      by_cases he : enPassantBranch m (locate m b.Turn b.Board 0 {}) = true
      · obtain ⟨_, q, hq, hqpos, _⟩ := enPassant_victim hinv hf hmem hgo hrule he
        rw [← hjv, hj] at hq
        cases hq
        exact Or.inr ⟨(enPassantBranch_fields he).1, (enPassantBranch_fields he).2, hqpos⟩
      · have hcap1 : (locate m b.Turn b.Board 0 {}).capture = true := by
          cases hcc : (locate m b.Turn b.Board 0 {}).capture
          · simp [hcc, he] at hcap
          · rfl
        obtain ⟨q, hq, hqt, _⟩ := hinv.cap hcap1
        have hv : victimIndex m (locate m b.Turn b.Board 0 {})
            (b.Board.modify (fun p => { p with Position := move.End })
              (locate m b.Turn b.Board 0 {}).pieceindex) =
            (locate m b.Turn b.Board 0 {}).capturedpiece := by
          unfold victimIndex
          rw [if_neg he]
        rw [hv] at hjv
        rw [← hjv, hj] at hq
        cases hq
        exact Or.inl ⟨hqt.1.symm, hqt.2⟩
    · exfalso
      rw [if_neg hc] at h0
      by_cases hjp : j = (locate m b.Turn b.Board 0 {}).pieceindex
      · rw [if_pos hjp, hme] at h0
        exact hend h0
      · rw [if_neg hjp] at h0
        exact hne h0
  · intro hp hfile hend hside
    rcases Move_ordinary env b m hd with ⟨_, hr⟩ | ⟨_, _, hr⟩ | ⟨move, b2, hf, hfind, _, _⟩
    · exact ⟨_, hr⟩
    · exact ⟨_, hr⟩
    · exfalso
      obtain ⟨hmp, hmb, hme⟩ := goEq_fields (List.find?_some hfind)
      obtain ⟨p0, hp0, _⟩ := hinv.found hf
      obtain ⟨_, hvict⟩ := hrule p0 hp0 move (List.mem_of_find?_eq_some hfind)
        (by rw [hmp, hp]) (by rw [hmb, hme]; exact hfile)
      rw [hmb, hme] at hvict
      rcases hvict with ⟨q, hq, hqp, _⟩ | ⟨q, hq, hqp, _⟩
      · exact hend q hq hqp
      · exact hside q hq hqp

theorem Move_removes_only_victims_witness :
    (((pieceAt "p" (-1) 2 5).Position = (moveOf "p" 3 5 2 6).End ∧
          (pieceAt "p" (-1) 2 5).Color = imul passantBoard.Turn (-1)) ∨
        ((moveOf "p" 3 5 2 6).Piece = "p" ∧
          (isub (moveOf "p" 3 5 2 6).Begin.X (moveOf "p" 3 5 2 6).End.X = 1 ∨
            isub (moveOf "p" 3 5 2 6).End.X (moveOf "p" 3 5 2 6).Begin.X = 1) ∧
          (pieceAt "p" (-1) 2 5).Position =
            { X := (moveOf "p" 3 5 2 6).End.X, Y := (moveOf "p" 3 5 2 6).Begin.Y })) ∧
      PawnStepRule lonePawnEnv lonePawnBoard 1 ∧
      ∃ e, lonePawnBoard.Move lonePawnEnv (moveOf "p" 3 5 2 6) =
        .returned lonePawnBoard (some e) :=
  ⟨(Move_removes_only_victims passantEnv passantBoard (moveOf "p" 3 5 2 6) (by decide)
      (by unfold PawnStepRule; decide)).1 passantBoardAfter (by decide) (by decide)
      0 { pieceAt "p" (-1) 2 5 with Can_en_passant := true } (pieceAt "p" (-1) 0 0)
      (by decide) (by decide) (by decide) (by decide),
    by unfold PawnStepRule; decide,
    (Move_removes_only_victims lonePawnEnv lonePawnBoard (moveOf "p" 3 5 2 6) (by decide)
      (by unfold PawnStepRule; decide)).2 (by decide) (by decide) (by decide) (by decide)⟩

/-- C23. Frame of an ordinary move.  After a nil return of the ordinary path,
every slot other than the mover's and other than the slot written to the
sentinel has the position, name, colour, `Can_castle` and `Can_double_move`
it had; the mover's slot, which held the piece the move names, keeps its name
and colour; the slot written to the sentinel stands on `(0,0)`. -/
theorem Move_ordinary_frame (env : Env) (b b1 : Board) (m : Move)
    (hd : isCastleDispatch m = false) (h : b.Move env m = .returned b1 none)
    (j : Nat) (p : Piece) (hj : b.Board[j]? = some p) :
    ∃ p1, b1.Board[j]? = some p1 ∧
      (j ≠ (locate m b.Turn b.Board 0 {}).pieceindex → capturedSlot b m ≠ some j →
        p1.Position = p.Position ∧ p1.Name = p.Name ∧ p1.Color = p.Color ∧
          p1.Can_castle = p.Can_castle ∧ p1.Can_double_move = p.Can_double_move) ∧
      (j = (locate m b.Turn b.Board 0 {}).pieceindex →
        isMover m b.Turn p ∧ p1.Name = p.Name ∧ p1.Color = p.Color) ∧
      (capturedSlot b m = some j → p1.Position = { X := 0, Y := 0 }) := by
  obtain ⟨move, mover, hf, hmem, hgo, hmover, hmv, _, hall⟩ := Move_success_shape hd h
  refine ⟨_, by rw [hall, hj]; rfl, ?_, ?_, ?_⟩
  · intro hjp hjc
    rw [capturedSlot_eq hgo] at hjc
    have hnc : ¬ (((locate m b.Turn b.Board 0 {}).capture ||
        enPassantBranch m (locate m b.Turn b.Board 0 {})) = true ∧
        j = victimIndex m (locate m b.Turn b.Board 0 {})
          (b.Board.modify (fun p => { p with Position := move.End })
            (locate m b.Turn b.Board 0 {}).pieceindex)) := by
      rintro ⟨h1, h2⟩
      rw [if_pos h1, ← h2] at hjc
      exact hjc rfl
    refine ⟨?_, rfl, rfl, ?_, ?_⟩
    · simp only [pieceAfter]
      rw [if_neg hnc, if_neg hjp]
    · simp only [pieceAfter]
      rw [if_neg (fun hc : _ ∧ _ => hjp hc.1)]
    · simp only [pieceAfter]
      rw [if_neg hjp]
  · intro hjp
    refine ⟨?_, rfl, rfl⟩
    rw [hjp, hmover] at hj
    cases hj
    exact hmv
  · intro hjc
    rw [capturedSlot_eq hgo] at hjc
    by_cases h1 : ((locate m b.Turn b.Board 0 {}).capture ||
        enPassantBranch m (locate m b.Turn b.Board 0 {})) = true
    · rw [if_pos h1] at hjc
      cases hjc
      simp [pieceAfter, h1]
    · rw [if_neg h1] at hjc
      cases hjc

theorem Move_ordinary_frame_witness :
    ∃ p1, escortBoardAfter.Board[0]? = some p1 ∧
      (0 ≠ 1 → capturedSlot escortBoard (moveOf "r" 1 1 2 1) ≠ some 0 →
        p1.Position = { X := 5, Y := 1 } ∧ p1.Name = "k" ∧ p1.Color = 1 ∧
          p1.Can_castle = true ∧ p1.Can_double_move = true) ∧
      (0 = 1 → isMover (moveOf "r" 1 1 2 1) 1
          { pieceAt "k" 1 5 1 with Can_castle := true, Can_double_move := true } ∧
        p1.Name = "k" ∧ p1.Color = 1) ∧
      (capturedSlot escortBoard (moveOf "r" 1 1 2 1) = some 0 →
        p1.Position = { X := 0, Y := 0 }) :=
  Move_ordinary_frame rookEnv escortBoard escortBoardAfter (moveOf "r" 1 1 2 1)
    (by decide) (by decide) 0
    { pieceAt "k" 1 5 1 with Can_castle := true, Can_double_move := true } (by decide)

end engine
